import Mathlib

/-!
Shallow embedding of the pinterest-dl GUI pipeline, taken from the sources
`src/gui.py` and `src/pinterest_dl/scrapers/scraper_base.py`, together with
proofs of the frozen specification claims.

Conventions of the embedding:
* Python `str` is Lean `String` (in this toolchain a `String` wraps `List Char`);
  optional attributes (`None`-able values) are `Option`.
* Filesystem state is abstracted as a predicate `String → Bool`
  ("does this path exist"); file contents are explicit inputs.
* Python `try/except` is modelled with `Except`: the raising body is a function
  into `Except`, the handler is a total match on the outcome.
* The browser is abstracted as a stream of scan results: pass `i` of the crawl
  loop observes the pin containers `g i` (or raises a socket error).
  `tqdm` progress bars, logging, `time.sleep`/`randdelay` and the
  "load more" click (whose absence is swallowed by a bare `except`) have no
  effect on the data flow and are not modelled; the
  `StaleElementReferenceException` retry path is likewise outside the model:
  a pass is modelled as a completed scan of the currently visible containers.
-/

set_option maxHeartbeats 1000000
set_option linter.unusedVariables false

namespace PinterestDl

/-! ### String helpers: Python `in`, `str.replace`, `pathlib` stem/suffix, `re.search` -/

/-- Python `pat in s` on character lists: some position of `l` starts with `pat`. -/
def containsSub (pat : List Char) : List Char → Bool
  | [] => pat.isEmpty
  | c :: rest => pat.isPrefixOf (c :: rest) || containsSub pat rest

/-- The thumbnail URL marker `"/236x/"` (gui.py, patched_scrape). -/
def thumbMarker : List Char := "/236x/".data

/-- The full-resolution URL segment `"/originals/"` (gui.py, patched_scrape). -/
def origMarker : List Char := "/originals/".data

/-- Python `str.replace` for the fixed pattern `"/236x/"` → `"/originals/"`:
all non-overlapping occurrences are replaced left to right.  `fuel` only bounds
the recursion (each step consumes at least one character) and is instantiated
with the string length. -/
def replaceMarkerAux : Nat → List Char → List Char
  | 0, l => l
  | _ + 1, [] => []
  | fuel + 1, c :: rest =>
    if thumbMarker.isPrefixOf (c :: rest) then
      origMarker ++ replaceMarkerAux fuel ((c :: rest).drop thumbMarker.length)
    else c :: replaceMarkerAux fuel rest

/-- `src.replace("/236x/", "/originals/")` (gui.py, patched_scrape). -/
def upgradeSrc (s : String) : String := ⟨replaceMarkerAux s.data.length s.data⟩

/-- The final path component, as in `pathlib`: everything after the last `/`. -/
def baseNameStr (s : String) : String := (s.splitOn "/").getLastD s

/-- Index of the last `.` of a character list, if any. -/
def lastDotIdx (cs : List Char) : Option Nat :=
  (cs.reverse.findIdx? (fun c => c == '.')).map (fun i => cs.length - 1 - i)

/-- `pathlib.PurePath.stem`: the final component without its suffix.  A dot
counts as starting a suffix only if it is neither the first nor the last
character of the name. -/
def pathStem (s : String) : String :=
  let base := baseNameStr s
  let cs := base.data
  match lastDotIdx cs with
  | none => base
  | some i => if 0 < i ∧ i + 1 < cs.length then ⟨cs.take i⟩ else base

/-- `pathlib.PurePath.suffix`: the extension of the final component
(including the dot), or `""`. -/
def pathSuffix (s : String) : String :=
  let base := baseNameStr s
  let cs := base.data
  match lastDotIdx cs with
  | none => ""
  | some i => if 0 < i ∧ i + 1 < cs.length then ⟨cs.drop i⟩ else ""

/-- Python truthiness of an optional string: `if img.alt:` —
`None` and `""` are falsy. -/
def goodAlt : Option String → Bool
  | none => false
  | some a => !(a == "")

/-- `not alt or not alt.strip()` (gui.py, patched_scrape): the alt text is
missing, empty, or whitespace-only. -/
def blankAlt : Option String → Bool
  | none => true
  | some a => a.trim == ""

/-! ### The media record (`pinterest_dl.data_model.pinterest_media.PinterestMedia`)

Only the attributes the two source files read or write are modelled:
`id`, `src`, `alt`, `origin` (the discovery href), `resolution`,
`video_stream` and `local_path`.  `patched_scrape` constructs items with
`PinterestMedia(int(id), src, alt, href, resolution=(0, 0))`. -/

structure PinterestMedia where
  id : Nat
  src : String
  alt : Option String
  origin : String
  resolution : Nat × Nat
  videoStream : Bool
  localPath : Option String
deriving DecidableEq

/-- `item.set_local_path(path)` (scraper_base.py). -/
def setLocalPath (m : PinterestMedia) (p : String) : PinterestMedia :=
  { m with localPath := some p }

/-! ### Deduplication registry (`scraper_base.py` lines 21–41 and 63–82)

The registry file `downloaded.json` is a JSON object mapping an item id to
`{"path": ..., "downloaded_at": ...}`; it is modelled as an association list
keyed by the media id. -/

structure RegEntry where
  path : String
  downloadedAt : String
deriving DecidableEq

abbrev Registry := List (Nat × RegEntry)

/-- Keys of a registry, in order. -/
def regKeys (r : Registry) : List Nat := r.map Prod.fst

/-- `registry[item.id]` lookup / `item.id in registry` membership test. -/
def lookupReg (r : Registry) (k : Nat) : Option RegEntry :=
  (r.find? (fun kv => kv.1 == k)).map Prod.snd

/-- `del registry[item.id]`. -/
def eraseReg (r : Registry) (k : Nat) : Registry :=
  r.filter (fun kv => !(kv.1 == k))

/-- The load outcomes of `downloaded.json` that let `download_media` proceed
(scraper_base.py 59–64): the file is absent, or present but its load failed
with one of the classes the handler catches (`json.JSONDecodeError`,
`IOError`) — both give `{}` — or it parsed.  The uncaught load failure
(`UnicodeDecodeError`, kept apart in `loadRegistryE` below) never reaches the
filtering loop: it propagates out of `download_media`. -/
inductive RegFile where
  | missing
  | corrupt
  | parsed (r : Registry)

/-- `_load_downloaded_registry` as seen by `download_media` when it returns
(scraper_base.py 21–31): a missing file skips the read and yields `{}`, a
caught load failure is logged and falls through to `return {}`, a parsed
file yields its map. -/
def loadRegistry : RegFile → Registry
  | .missing => []
  | .corrupt => []
  | .parsed r => r

/-- The exception classes the read of `_load_downloaded_registry` can raise:
`json.JSONDecodeError` for invalid JSON text and `IOError` for an unreadable
file, the two named in the `except` clause, and `UnicodeDecodeError`, raised
by `json.load` when the file bytes are not valid UTF-8 (for instance a write
truncated inside a multi-byte character, which `ensure_ascii=False` makes
possible) — a `ValueError`, neither of the caught classes. -/
inductive LoadFailure where
  | jsonDecode
  | ioError
  | unicodeDecode
deriving DecidableEq

/-- Whether `except (json.JSONDecodeError, IOError)` catches the failure. -/
def loadHandlerCatches : LoadFailure → Bool
  | .jsonDecode => true
  | .ioError => true
  | .unicodeDecode => false

/-- A registry file as found on disk: absent, present but failing to load in
a particular way, or valid. -/
inductive RegFileContent where
  | missing
  | failing (e : LoadFailure)
  | parsed (r : Registry)

/-- `_load_downloaded_registry` (scraper_base.py 21–31) with the failure
classes kept apart: a missing file yields `{}` without reading; a load
failure is caught, logged and turned into `{}` only when it is one of the
classes named in the `except` clause, and propagates to the caller
otherwise; a valid file yields its map. -/
def loadRegistryE : RegFileContent → Except LoadFailure Registry
  | .missing => .ok []
  | .failing e => if loadHandlerCatches e then .ok [] else .error e
  | .parsed r => .ok r

inductive SaveOutcome where
  | saved
  | loggedFailure
deriving DecidableEq

/-- The exception classes the write of `_save_downloaded_registry` can
raise: `IOError`, the one class its `except` clause names, and
`UnicodeEncodeError` from `json.dump` with `ensure_ascii=False` (for
instance a surrogate-escaped path string) — a `ValueError` the handler does
not catch. -/
inductive SaveFailure where
  | ioError
  | unicodeEncode
deriving DecidableEq

/-- Whether `except IOError` catches the failure. -/
def saveHandlerCatches : SaveFailure → Bool
  | .ioError => true
  | .unicodeEncode => false

/-- `_save_downloaded_registry` (scraper_base.py 33–41): `w` is how the
write attempt ends (`none` meaning success).  An `IOError` is caught and
logged; any other failure propagates to the caller. -/
def saveRegistryE : Option SaveFailure → Except SaveFailure SaveOutcome
  | none => .ok .saved
  | some e => if saveHandlerCatches e then .ok .loggedFailure else .error e

/-- State of the filtering loop of `download_media`
(scraper_base.py 66–78): the `to_download` list, the (possibly repaired)
registry, and the input media list with local paths set for registry hits. -/
structure FilterState where
  toDownload : List PinterestMedia
  reg : Registry
  outMedia : List PinterestMedia
deriving DecidableEq

/-- One iteration of the `for item in media` loop of `download_media`
(scraper_base.py 68–78): a registry hit whose recorded path still exists is
skipped (its local path is set from the registry); a hit whose path is gone is
deleted from the registry and queued; a miss is queued.  `ex` is the
`Path.exists()` oracle. -/
def filterStep (ex : String → Bool) (st : FilterState) (item : PinterestMedia) :
    FilterState :=
  match lookupReg st.reg item.id with
  | some e =>
    if ex e.path then
      { st with outMedia := st.outMedia ++ [setLocalPath item e.path] }
    else
      { toDownload := st.toDownload ++ [item]
        reg := eraseReg st.reg item.id
        outMedia := st.outMedia ++ [item] }
  | none =>
    { st with
        toDownload := st.toDownload ++ [item]
        outMedia := st.outMedia ++ [item] }

/-- The whole filtering loop of `download_media` (scraper_base.py 66–78). -/
def filterPending (ex : String → Bool) (media : List PinterestMedia)
    (reg : Registry) : FilterState :=
  media.foldl (filterStep ex) ⟨[], reg, []⟩

/-- `download_media` up to the point where the downloader is invoked
(scraper_base.py 59–78): load the registry from `downloaded.json`, then filter.
This runs on every invocation. -/
def downloadMediaPlan (ex : String → Bool) (media : List PinterestMedia)
    (content : RegFile) : FilterState :=
  filterPending ex media (loadRegistry content)

/-- An item is "already satisfied": its id is a key of the registry and the
recorded path still exists. -/
def satisfiedB (ex : String → Bool) (reg : Registry) (m : PinterestMedia) : Bool :=
  match lookupReg reg m.id with
  | some e => ex e.path
  | none => false

/-- The effect of the filtering loop on one media record: a satisfied item
gets its local path set from the registry, any other item is unchanged. -/
def regUpdate (ex : String → Bool) (reg : Registry) (m : PinterestMedia) :
    PinterestMedia :=
  match lookupReg reg m.id with
  | some e => if ex e.path then setLocalPath m e.path else m
  | none => m

/-! ### Resolution pruning -/

/-- The browser-path resolution filter of `scrape_images` (gui.py 441–442):
`if res_x > 0 or res_y > 0: imgs_data = [img for img in imgs_data if
img.resolution[0] >= res_x and img.resolution[1] >= res_y]`. -/
def guiResolutionFilter (resX resY : Nat) (imgs : List PinterestMedia) :
    List PinterestMedia :=
  if 0 < resX ∨ 0 < resY then
    imgs.filter (fun m =>
      decide (resX ≤ m.resolution.1) && decide (resY ≤ m.resolution.2))
  else imgs

/-- Modelled from the spec: `PinterestMedia.prune_local` lives in
`pinterest_dl/data_model/pinterest_media.py`, which is not among the sources;
only its caller `_ScraperBase.prune_images` is.  Per the spec (§4.3), an item
passes iff both dimensions of its measured resolution are at least the
corresponding minimum (`0` meaning no constraint on that axis), and an item
with no local file cannot be measured and is dropped unless both minimums
are `0`. -/
def pruneLocal (m : PinterestMedia) (minRes : Nat × Nat) : Bool :=
  if minRes.1 = 0 ∧ minRes.2 = 0 then true
  else
    match m.localPath with
    | none => false
    | some _ =>
      decide (minRes.1 ≤ m.resolution.1) && decide (minRes.2 ≤ m.resolution.2)

/-- `_ScraperBase.prune_images` (scraper_base.py 213–236): keep exactly the
images for which `prune_local` holds, in order. -/
def pruneImages (imgs : List PinterestMedia) (minRes : Nat × Nat) :
    List PinterestMedia :=
  imgs.filter (fun m => pruneLocal m minRes)

/-! ### Sidecar caption writer (`add_captions_to_file`, scraper_base.py 124–168) -/

inductive CapExt where
  | txt
  | json
deriving DecidableEq

def capExtStr : CapExt → String
  | .txt => "txt"
  | .json => "json"

/-- What gets written into a sidecar file: the full item record (json mode)
or the raw alt text (txt mode). -/
inductive CaptionContent where
  | jsonRecord (m : PinterestMedia)
  | altText (t : String)
deriving DecidableEq

/-- `output_dir / f"{img.local_path.stem}.{extension}"`. -/
def captionPath (dir : String) (lp : String) (ext : CapExt) : String :=
  dir ++ "/" ++ pathStem lp ++ "." ++ capExtStr ext

/-- The `for img in images` loop of `add_captions_to_file`
(scraper_base.py 147–168).  `fs0` is the `Path.exists()` oracle for files
present before the call; files written earlier in the same loop (`acc`) also
count as existing.  Returns the performed writes in order. -/
def addCapsAux (ext : CapExt) (fs0 : String → Bool) (dir : String) :
    List PinterestMedia → List (String × CaptionContent) →
      List (String × CaptionContent)
  | [], acc => acc
  | m :: rest, acc =>
    match m.localPath with
    | none => addCapsAux ext fs0 dir rest acc
    | some lp =>
      let p := captionPath dir lp ext
      if fs0 p || (acc.map Prod.fst).contains p then addCapsAux ext fs0 dir rest acc
      else
        match ext with
        | .json => addCapsAux ext fs0 dir rest (acc ++ [(p, .jsonRecord m)])
        | .txt =>
          match m.alt with
          | none => addCapsAux ext fs0 dir rest acc
          | some a =>
            if a == "" then addCapsAux ext fs0 dir rest acc
            else addCapsAux ext fs0 dir rest (acc ++ [(p, .altText a)])

/-- `add_captions_to_file` on an initially untouched output directory. -/
def addCaptionsToFile (ext : CapExt) (fs0 : String → Bool) (dir : String)
    (imgs : List PinterestMedia) : List (String × CaptionContent) :=
  addCapsAux ext fs0 dir imgs []

/-! ### Embedded-metadata caption writer (`add_captions_to_meta`, scraper_base.py 170–211) -/

/-- Per-item outcome of the metadata captioning loop. -/
inductive MetaOutcome where
  | skippedStream
  | skippedNoPath
  | skippedGif
  | wrote (comment subject : Bool)
  | failedLogged (commentWritten : Bool)
deriving DecidableEq

/-- The `try` body for one image (scraper_base.py 181–198): streams, items
without a local path, and `.gif` files are skipped; otherwise the origin is
written as a comment and the alt text as the subject, either write possibly
raising.  `fc`/`fs` say whether the comment/subject metadata write raises;
an error carries whether the comment had already been written. -/
def metaTryItem (fc fs : Bool) (m : PinterestMedia) : Except Bool MetaOutcome :=
  if m.videoStream then .ok .skippedStream
  else
    match m.localPath with
    | none => .ok .skippedNoPath
    | some lp =>
      if pathSuffix lp == ".gif" then .ok .skippedGif
      else
        let wantC := !(m.origin == "")
        let wantS := goodAlt m.alt
        if wantC && fc then .error false
        else if wantS && fs then .error wantC
        else .ok (.wrote wantC wantS)

/-- The `except Exception` handler (scraper_base.py 200–211): a failure is
logged and turned into a per-item outcome. -/
def catchMeta : Except Bool MetaOutcome → MetaOutcome
  | .ok o => o
  | .error wc => .failedLogged wc

/-- The `for index in range(len(images))` loop of `add_captions_to_meta`:
item `index` is processed inside its own `try/except`, so the loop always
continues with the next item.  `fail index` says whether the comment/subject
write for that item raises. -/
def addCaptionsToMeta (fail : Nat → Bool × Bool) :
    Nat → List PinterestMedia → List MetaOutcome
  | _, [] => []
  | i, m :: rest =>
    catchMeta (metaTryItem (fail i).1 (fail i).2 m) ::
      addCaptionsToMeta fail (i + 1) rest

/-! ### Browser crawl loop (`patched_scrape`, gui.py 333–412)

A visible pin container (`div[data-test-id='pin']`) carries an optional
numeric `data-test-pin-id` (`None`/empty modelled as `none`), an anchor href,
and a list of images, each with optional alt and src attributes. -/

structure ImgObs where
  alt : Option String
  src : Option String
deriving DecidableEq

structure DivObs where
  pinId : Option Nat
  href : String
  imgs : List ImgObs
deriving DecidableEq

/-- `PinterestMedia(int(id), src, alt, href, resolution=(0, 0))`
(gui.py 363–369). -/
def mkScrapedMedia (pid : Nat) (src : String) (alt : Option String)
    (href : String) : PinterestMedia :=
  ⟨pid, src, alt, href, (0, 0), false, none⟩

/-- The `for image in images` loop (gui.py 354–373): an image is emitted only
when its src contains `"/236x/"`; the src is upgraded to the `/originals/`
form and deduplicated against `unique_results`; reaching `num` unique results
breaks the loop. -/
def processImages (num : Nat) (ea : Bool) (pid : Nat) (href : String) :
    List ImgObs → List String → List PinterestMedia →
      List String × List PinterestMedia
  | [], u, d => (u, d)
  | img :: rest, u, d =>
    if ea && blankAlt img.alt then processImages num ea pid href rest u d
    else
      match img.src with
      | none => processImages num ea pid href rest u d
      | some s =>
        if containsSub thumbMarker s.data then
          let s' := upgradeSrc s
          if u.contains s' then processImages num ea pid href rest u d
          else
            let u' := s' :: u
            let d' := d ++ [mkScrapedMedia pid s' img.alt href]
            if num ≤ u'.length then (u', d')
            else processImages num ea pid href rest u' d'
        else processImages num ea pid href rest u d

/-- The `for div in divs` loop (gui.py 346–373): stop once `num` unique
results are collected; containers without a pin id are skipped. -/
def processDivs (num : Nat) (ea : Bool) :
    List DivObs → List String → List PinterestMedia →
      List String × List PinterestMedia
  | [], u, d => (u, d)
  | dv :: rest, u, d =>
    if num ≤ u.length then (u, d)
    else
      match dv.pinId with
      | none => processDivs num ea rest u d
      | some pid =>
        let ud := processImages num ea pid dv.href dv.imgs u d
        processDivs num ea rest ud.1 ud.2

/-- The mutable state of `patched_scrape`: `unique_results` (insertion at the
front; membership is all that matters), `imgs_data`, `no_new_scrolls`, and
`scroll_count`. -/
structure CrawlState where
  unique : List String
  imgs : List PinterestMedia
  noNew : Nat
  scroll : Nat
deriving DecidableEq

def crawlInit : CrawlState := ⟨[], [], 0, 0⟩

/-- Both the normal return and the socket-error abort deliver the state the
loop had accumulated (the `finally` block returns `imgs_data` in each case). -/
def exceptState : Except CrawlState CrawlState → CrawlState
  | .ok s => s
  | .error s => s

/-- The `while scroll_count < 800` loop of `patched_scrape` (gui.py 342–405).
Pass `s.scroll` observes `g s.scroll`: either the visible containers, or a
raised `socket.error`/`socket.timeout`, which aborts the loop carrying the
state collected so far (`Except.error`).  After a scan, a pass with no new
unique results increments `no_new_scrolls`, any new result resets it, and ten
consecutive no-new passes break the loop.  `fuel` only bounds the recursion
and is instantiated with `800`; the `s.scroll < 800` guard is the source's
hard ceiling. -/
def crawlLoopFull (g : Nat → Except Unit (List DivObs)) (num : Nat) (ea : Bool) :
    Nat → CrawlState → Except CrawlState CrawlState
  | 0, s => .ok s
  | fuel + 1, s =>
    if s.scroll < 800 then
      match g s.scroll with
      | .error _ => .error s
      | .ok divs =>
        let ud := processDivs num ea divs s.unique s.imgs
        let nn := if ud.1.length = s.unique.length then s.noNew + 1 else 0
        if 10 ≤ nn then .ok ⟨ud.1, ud.2, nn, s.scroll⟩
        else crawlLoopFull g num ea fuel ⟨ud.1, ud.2, nn, s.scroll + 1⟩
    else .ok s

/-- `patched_scrape` (gui.py 333–412): run the crawl loop from the empty
session state; the `finally` block returns `imgs_data` whether the loop ended
normally or was aborted by a socket error. -/
def patchedScrape (g : Nat → Except Unit (List DivObs)) (num : Nat) (ea : Bool) :
    List PinterestMedia :=
  (exceptState (crawlLoopFull g num ea 800 crawlInit)).imgs

/-- A pass stream that never raises. -/
def pureStream (h : Nat → List DivObs) : Nat → Except Unit (List DivObs) :=
  fun i => .ok (h i)

/-- The id-deduplication loop of `scrape_images` (gui.py 432–438): keep the
first item for each id, stop once `limit` items are kept. -/
def scrapeDedup (limit : Nat) :
    List PinterestMedia → List Nat → List PinterestMedia → List PinterestMedia
  | [], _, acc => acc
  | img :: rest, seen, acc =>
    if seen.contains img.id then scrapeDedup limit rest seen acc
    else
      let acc' := acc ++ [img]
      if limit ≤ acc'.length then acc'
      else scrapeDedup limit rest (img.id :: seen) acc'

/-! ### Recursive visual-search expansion (`scrape_images`, gui.py 306–312 and 469–493) -/

/-- `"/pin/"`, the literal of the regex `r'/pin/(\d+)/'`. -/
def pinToken : List Char := "/pin/".data

/-- Try to match `/pin/(\d+)/` at the start of `l`. -/
def matchPinAt (l : List Char) : Option String :=
  if pinToken.isPrefixOf l then
    let rest := l.drop pinToken.length
    let ds := rest.takeWhile (fun c => c.isDigit)
    if ds.isEmpty then none
    else
      match (rest.drop ds.length).head? with
      | some c => if c == '/' then some ⟨ds⟩ else none
      | none => none
  else none

/-- Leftmost match, like `re.search`. -/
def searchPin : List Char → Option String
  | [] => none
  | c :: rest =>
    match matchPinAt (c :: rest) with
    | some r => some r
    | none => searchPin rest

/-- `original_pin_id` extraction (gui.py 306–312): `re.search(r'/pin/(\d+)/',
url)` guarded by `'/pin/' in url` (the guard is subsumed by the search). -/
def extractPinId (url : String) : Option String := searchPin url.data

/-- The synthetic related-items query (gui.py 475). -/
def visualSearchUrl (pid : Nat) : String :=
  "https://se.pinterest.com/pin/" ++ toString pid ++
    "/visual-search/?cropSource=5&entrypoint=closeup_cta&rs=flashlight"

/-- The items the recursion loop recurses on (gui.py 470–472): every
downloaded item except the one whose `str(img.id)` equals the extracted
original pin id. -/
def childSeedsOf (url : String) (items : List Nat) : List Nat :=
  items.filter (fun i => !(extractPinId url == some (toString i)))

/-- The direct recursive calls made by one `scrape_images` run
(gui.py 445 and 469–493): none when nothing was scraped (the recursion block
sits inside `if imgs_data:`) or when `recurse_factor` is `0`; otherwise one
call per child seed, at the visual-search URL, with depth decreased by one. -/
def scrapeDirectCalls (disc : String → List Nat) (depth : Nat) (url : String) :
    List (String × Nat) :=
  match depth with
  | 0 => []
  | d + 1 =>
    if (disc url).isEmpty then []
    else (childSeedsOf url (disc url)).map (fun i => (visualSearchUrl i, d))

/-- Total number of `scrape_images` invocations in the recursion tree rooted
at `url` with depth budget `depth`, where `disc url` abstracts the ids of the
items the run at `url` scrapes and downloads. -/
def scrapeInvocations (disc : String → List Nat) : Nat → String → Nat
  | 0, _ => 1
  | d + 1, url =>
    if (disc url).isEmpty then 1
    else
      1 + ((childSeedsOf url (disc url)).map
        (fun i => scrapeInvocations disc d (visualSearchUrl i))).sum

/-- The geometric invocation bound: `geomBound 0 b = 1`,
`geomBound (d+1) b = 1 + b * geomBound d b`. -/
def geomBound : Nat → Nat → Nat
  | 0, _ => 1
  | d + 1, b => 1 + b * geomBound d b

/-- Session invariant of the crawl scan: emitted candidates have pairwise
distinct sources, all of them registered in the unique set, which is itself
duplicate-free and at least as long as the emitted list. -/
def CrawlGood (u : List String) (d : List PinterestMedia) : Prop :=
  ((d.map (fun m => m.src)).Nodup)
  ∧ (∀ m ∈ d, m.src ∈ u)
  ∧ u.Nodup
  ∧ d.length ≤ u.length

/-- Closed form of the state the `download_media` filtering loop reaches
after processing the prefix `pre` of the media list against the loaded
registry `reg0`: queued items are the unsatisfied ones, the registry keeps an
entry unless some processed item found its path missing, and satisfied items
carry the registered local path. -/
def c1StateFor (ex : String → Bool) (reg0 : Registry)
    (pre : List PinterestMedia) : FilterState :=
  ⟨pre.filter (fun m => !satisfiedB ex reg0 m),
    reg0.filter (fun kv => ex kv.2.path || pre.all (fun m => !(m.id == kv.1))),
    pre.map (regUpdate ex reg0)⟩

/-! ## Theorems -/

/-! ### Claim C6: registry I/O error handling -/

/-- Counterexample to C6 as stated: a malformed `downloaded.json` whose
bytes are not valid UTF-8 makes `json.load` raise `UnicodeDecodeError`,
which `except (json.JSONDecodeError, IOError)` does not catch — the load
raises to the caller instead of returning the empty map; likewise a
`UnicodeEncodeError` escapes the save's `except IOError`. -/
theorem c6_registry_io_counterexample :
    loadRegistryE (RegFileContent.failing LoadFailure.unicodeDecode) =
        Except.error LoadFailure.unicodeDecode
      ∧ ¬loadRegistryE (RegFileContent.failing LoadFailure.unicodeDecode) =
          Except.ok []
      ∧ saveRegistryE (some SaveFailure.unicodeEncode) =
          Except.error SaveFailure.unicodeEncode := by
  refine ⟨rfl, ?_, rfl⟩
  intro h
  exact Except.noConfusion h

/-- Claim C6 as amended: loading the registry from a missing file returns
the empty map; a load failure of one of the caught classes (invalid JSON
text, `IOError`) is logged and returns the empty map; a parsed file returns
its contents; a save failure of the caught class (`IOError`) is logged and
returns control to the caller — but a load or save failure outside the
handled classes (`UnicodeDecodeError` while reading an invalid-UTF-8 file,
`UnicodeEncodeError` while dumping) propagates to the caller. -/
theorem c6_registry_io_handled_classes :
    ∀ (c : RegFileContent) (w : Option SaveFailure),
      (c = RegFileContent.missing → loadRegistryE c = Except.ok [])
      ∧ (∀ e, c = RegFileContent.failing e → loadHandlerCatches e = true →
          loadRegistryE c = Except.ok [])
      ∧ (∀ r, c = RegFileContent.parsed r → loadRegistryE c = Except.ok r)
      ∧ (∀ e, c = RegFileContent.failing e → loadHandlerCatches e = false →
          loadRegistryE c = Except.error e)
      ∧ (w = none → saveRegistryE w = Except.ok SaveOutcome.saved)
      ∧ (∀ e, w = some e → saveHandlerCatches e = true →
          saveRegistryE w = Except.ok SaveOutcome.loggedFailure)
      ∧ (∀ e, w = some e → saveHandlerCatches e = false →
          saveRegistryE w = Except.error e) := by
  intro c w
  refine ⟨?_, ?_, ?_, ?_, ?_, ?_, ?_⟩
  · rintro rfl; rfl
  · rintro e rfl hc
    unfold loadRegistryE
    try dsimp only
    rw [if_pos hc]
  · rintro r rfl; rfl
  · rintro e rfl hc
    unfold loadRegistryE
    try dsimp only
    rw [if_neg (by simp [hc])]
  · rintro rfl; rfl
  · rintro e rfl hc
    unfold saveRegistryE
    try dsimp only
    rw [if_pos hc]
  · rintro e rfl hc
    unfold saveRegistryE
    try dsimp only
    rw [if_neg (by simp [hc])]

/-- Witness for the amended C6 at concrete inputs: a JSON-decode failure
loads as the empty map and an `IOError` on save is logged, not raised. -/
theorem c6_registry_io_handled_classes_witness :
    loadRegistryE (RegFileContent.failing LoadFailure.jsonDecode) =
        Except.ok []
      ∧ saveRegistryE (some SaveFailure.ioError) =
          Except.ok SaveOutcome.loggedFailure :=
  ⟨(c6_registry_io_handled_classes
        (RegFileContent.failing LoadFailure.jsonDecode)
        (some SaveFailure.ioError)).2.1 LoadFailure.jsonDecode rfl rfl,
    (c6_registry_io_handled_classes
        (RegFileContent.failing LoadFailure.jsonDecode)
        (some SaveFailure.ioError)).2.2.2.2.2.1 SaveFailure.ioError rfl rfl⟩

/-! ### Claim C5: resolution pruning -/

/-- Claim C5: both resolution pruners keep an item iff both dimensions of its
resolution are at least the corresponding minimum, a `0` minimum imposing no
constraint on its axis (so an item exactly at `(minX, minY)` is kept and one
pixel under either dimension is dropped), and the `(0, 0)` minimum keeps
every item. -/
theorem c5_resolution_prune :
    ∀ (imgs : List PinterestMedia) (resX resY : Nat) (m : PinterestMedia),
      (m ∈ guiResolutionFilter resX resY imgs ↔
        m ∈ imgs ∧ resX ≤ m.resolution.1 ∧ resY ≤ m.resolution.2)
      ∧ (m.localPath.isSome = true →
          (m ∈ pruneImages imgs (resX, resY) ↔
            m ∈ imgs ∧ resX ≤ m.resolution.1 ∧ resY ≤ m.resolution.2))
      ∧ (m ∈ pruneImages imgs (0, 0) ↔ m ∈ imgs) := by
  intro imgs rx ry m
  refine ⟨?_, ?_, ?_⟩
  · unfold guiResolutionFilter
    by_cases h : 0 < rx ∨ 0 < ry
    · rw [if_pos h]
      simp [List.mem_filter]
    · rw [if_neg h]
      push_neg at h
      obtain ⟨hx, hy⟩ := h
      interval_cases rx
      interval_cases ry
      simp
  · intro hlp
    unfold pruneImages pruneLocal
    rw [List.mem_filter]
    by_cases h0 : rx = 0 ∧ ry = 0
    · obtain ⟨rfl, rfl⟩ := h0
      simp
    · rw [if_neg h0]
      cases hp : m.localPath with
      | none => rw [hp] at hlp; simp at hlp
      | some lp => simp
  · unfold pruneImages pruneLocal
    rw [List.mem_filter]
    simp

/-- Witness for C5 at concrete inputs: an item measured exactly at the
minimum is kept by the pruner. -/
theorem c5_resolution_prune_witness :
    (⟨1, "s", none, "o", (640, 480), false, some "f.jpg"⟩ : PinterestMedia) ∈
        pruneImages [⟨1, "s", none, "o", (640, 480), false, some "f.jpg"⟩]
          (640, 480) ↔
      (⟨1, "s", none, "o", (640, 480), false, some "f.jpg"⟩ : PinterestMedia) ∈
          [(⟨1, "s", none, "o", (640, 480), false, some "f.jpg"⟩ : PinterestMedia)]
        ∧ 640 ≤ 640 ∧ 480 ≤ 480 := by
  have h := (c5_resolution_prune
    [⟨1, "s", none, "o", (640, 480), false, some "f.jpg"⟩] 640 480
    ⟨1, "s", none, "o", (640, 480), false, some "f.jpg"⟩).2.1 rfl
  exact h

/-! ### Claim C8: sidecar caption writer -/

/-- The caption loop only ever appends to the list of performed writes. -/
theorem addCapsAux_shape (ext : CapExt) (fs0 : String → Bool) (dir : String) :
    ∀ (imgs : List PinterestMedia) (acc : List (String × CaptionContent)),
      ∃ t, addCapsAux ext fs0 dir imgs acc = acc ++ t := by
  intro imgs
  induction imgs with
  | nil => intro acc; exact ⟨[], by simp [addCapsAux]⟩
  | cons m rest ih =>
    intro acc
    unfold addCapsAux
    cases hlp : m.localPath with
    | none => exact ih acc
    | some lp =>
      try dsimp only
      by_cases hex : (fs0 (captionPath dir lp ext)
          || ((acc.map Prod.fst).contains (captionPath dir lp ext))) = true
      · rw [if_pos hex]; exact ih acc
      · rw [if_neg hex]
        cases ext with
        | json =>
          try dsimp only
          obtain ⟨t, ht⟩ := ih (acc ++ [(captionPath dir lp CapExt.json,
            CaptionContent.jsonRecord m)])
          exact ⟨(captionPath dir lp CapExt.json,
            CaptionContent.jsonRecord m) :: t, by rw [ht]; simp⟩
        | txt =>
          try dsimp only
          cases halt : m.alt with
          | none => exact ih acc
          | some a =>
            try dsimp only
            by_cases ha : (a == "") = true
            · rw [if_pos ha]; exact ih acc
            · rw [if_neg ha]
              obtain ⟨t, ht⟩ := ih (acc ++ [(captionPath dir lp CapExt.txt,
                CaptionContent.altText a)])
              exact ⟨(captionPath dir lp CapExt.txt,
                CaptionContent.altText a) :: t, by rw [ht]; simp⟩

/-- Which writes the caption loop performs: paths are distinct, none existed
beforehand, and each write belongs to an input item with a local path and
the right content for the mode. -/
theorem addCapsAux_writes (ext : CapExt) (fs0 : String → Bool) (dir : String) :
    ∀ (imgs : List PinterestMedia) (acc : List (String × CaptionContent)),
      ((acc.map Prod.fst).Nodup) →
      (((addCapsAux ext fs0 dir imgs acc).map Prod.fst).Nodup
        ∧ ∀ pc ∈ addCapsAux ext fs0 dir imgs acc, pc ∈ acc ∨
            (fs0 pc.1 = false ∧ ∃ m lp, m ∈ imgs ∧ m.localPath = some lp
              ∧ pc.1 = captionPath dir lp ext
              ∧ (ext = CapExt.json → pc.2 = CaptionContent.jsonRecord m)
              ∧ (ext = CapExt.txt →
                  ∃ a, m.alt = some a ∧ ¬a = "" ∧
                    pc.2 = CaptionContent.altText a))) := by
  intro imgs
  induction imgs with
  | nil =>
    intro acc hnd
    refine ⟨by simpa [addCapsAux] using hnd, ?_⟩
    intro pc hpc
    exact Or.inl (by simpa [addCapsAux] using hpc)
  | cons m rest ih =>
    intro acc hnd
    unfold addCapsAux
    cases hlp : m.localPath with
    | none =>
      obtain ⟨h1, h2⟩ := ih acc hnd
      refine ⟨h1, fun pc hpc => ?_⟩
      rcases h2 pc hpc with h | ⟨hfs, mm, lp, hm, hrest⟩
      · exact Or.inl h
      · exact Or.inr ⟨hfs, mm, lp, List.mem_cons_of_mem _ hm, hrest⟩
    | some lp =>
      try dsimp only
      by_cases hex : (fs0 (captionPath dir lp ext)
          || ((acc.map Prod.fst).contains (captionPath dir lp ext))) = true
      · rw [if_pos hex]
        obtain ⟨h1, h2⟩ := ih acc hnd
        refine ⟨h1, fun pc hpc => ?_⟩
        rcases h2 pc hpc with h | ⟨hfs, mm, lp', hm, hrest⟩
        · exact Or.inl h
        · exact Or.inr ⟨hfs, mm, lp', List.mem_cons_of_mem _ hm, hrest⟩
      · rw [if_neg hex]
        rw [Bool.or_eq_true, not_or] at hex
        obtain ⟨hfs, hmem⟩ := hex
        have hfs' : fs0 (captionPath dir lp ext) = false :=
          Bool.eq_false_iff.mpr hfs
        have hnotmem : captionPath dir lp ext ∉ acc.map Prod.fst := by
          intro hcon
          exact hmem (by simpa using hcon)
        have hstep : ∀ (c : CaptionContent),
            (((acc ++ [(captionPath dir lp ext, c)]).map Prod.fst).Nodup) := by
          intro c
          rw [List.map_append, List.nodup_append]
          exact ⟨hnd, by simp, by simpa using hnotmem⟩
        cases ext with
        | json =>
          try dsimp only
          obtain ⟨h1, h2⟩ := ih (acc ++ [(captionPath dir lp CapExt.json,
            CaptionContent.jsonRecord m)]) (hstep _)
          refine ⟨h1, fun pc hpc => ?_⟩
          rcases h2 pc hpc with h | ⟨hfsx, mm, lp', hm, hrest⟩
          · rcases List.mem_append.mp h with h' | h'
            · exact Or.inl h'
            · simp only [List.mem_singleton] at h'
              subst h'
              exact Or.inr ⟨hfs', m, lp, List.mem_cons_self _ _, hlp, rfl,
                fun _ => rfl, fun hcon => by cases hcon⟩
          · exact Or.inr ⟨hfsx, mm, lp', List.mem_cons_of_mem _ hm, hrest⟩
        | txt =>
          try dsimp only
          cases halt : m.alt with
          | none =>
            obtain ⟨h1, h2⟩ := ih acc hnd
            refine ⟨h1, fun pc hpc => ?_⟩
            rcases h2 pc hpc with h | ⟨hfsx, mm, lp', hm, hrest⟩
            · exact Or.inl h
            · exact Or.inr ⟨hfsx, mm, lp', List.mem_cons_of_mem _ hm, hrest⟩
          | some a =>
            try dsimp only
            by_cases ha : (a == "") = true
            · rw [if_pos ha]
              obtain ⟨h1, h2⟩ := ih acc hnd
              refine ⟨h1, fun pc hpc => ?_⟩
              rcases h2 pc hpc with h | ⟨hfsx, mm, lp', hm, hrest⟩
              · exact Or.inl h
              · exact Or.inr ⟨hfsx, mm, lp', List.mem_cons_of_mem _ hm, hrest⟩
            · rw [if_neg ha]
              obtain ⟨h1, h2⟩ := ih (acc ++ [(captionPath dir lp CapExt.txt,
                CaptionContent.altText a)]) (hstep _)
              refine ⟨h1, fun pc hpc => ?_⟩
              rcases h2 pc hpc with h | ⟨hfsx, mm, lp', hm, hrest⟩
              · rcases List.mem_append.mp h with h' | h'
                · exact Or.inl h'
                · simp only [List.mem_singleton] at h'
                  subst h'
                  have hane : ¬a = "" := by
                    intro hcon
                    exact ha (by simp [hcon])
                  refine Or.inr ⟨hfs', m, lp, List.mem_cons_self _ _, hlp, rfl,
                    ?_, ?_⟩
                  · intro hcon; cases hcon
                  · intro hcon; exact ⟨a, halt, hane, rfl⟩
              · exact Or.inr ⟨hfsx, mm, lp', List.mem_cons_of_mem _ hm, hrest⟩

/-- Completeness of the caption loop: an item with a local path whose sidecar
does not yet exist, and which has content to write, gets its sidecar
written. -/
theorem addCapsAux_complete (ext : CapExt) (fs0 : String → Bool) (dir : String) :
    ∀ (imgs : List PinterestMedia) (acc : List (String × CaptionContent))
      (m : PinterestMedia) (lp : String),
      m ∈ imgs → m.localPath = some lp →
      fs0 (captionPath dir lp ext) = false →
      (ext = CapExt.json ∨ goodAlt m.alt = true) →
      captionPath dir lp ext ∈ (addCapsAux ext fs0 dir imgs acc).map Prod.fst := by
  intro imgs
  induction imgs with
  | nil => intro acc m lp hm; cases hm
  | cons m0 rest ih =>
    intro acc m lp hm hlp hfs hmode
    have hpersist : ∀ (acc' : List (String × CaptionContent)) (p : String),
        p ∈ acc'.map Prod.fst →
        p ∈ (addCapsAux ext fs0 dir rest acc').map Prod.fst := by
      intro acc' p hp
      obtain ⟨t, ht⟩ := addCapsAux_shape ext fs0 dir rest acc'
      rw [ht, List.map_append]
      exact List.mem_append.mpr (Or.inl hp)
    rcases List.mem_cons.mp hm with rfl | hm'
    · -- the item itself is at the head
      unfold addCapsAux
      rw [hlp]
      try dsimp only
      by_cases hex : (fs0 (captionPath dir lp ext)
          || ((acc.map Prod.fst).contains (captionPath dir lp ext))) = true
      · rw [if_pos hex]
        rw [Bool.or_eq_true] at hex
        rcases hex with h | h
        · rw [hfs] at h; cases h
        · exact hpersist acc _ (by simpa using h)
      · rw [if_neg hex]
        cases ext with
        | json =>
          try dsimp only
          refine hpersist _ _ ?_
          simp
        | txt =>
          try dsimp only
          rcases hmode with hcon | hga
          · cases hcon
          · cases halt : m.alt with
            | none => rw [halt] at hga; simp [goodAlt] at hga
            | some a =>
              try dsimp only
              rw [halt] at hga
              have ha : ¬(a == "") = true := by
                simpa [goodAlt] using hga
              rw [if_neg ha]
              refine hpersist _ _ ?_
              simp
    · -- the item is in the tail: any branch recurses on `rest`
      unfold addCapsAux
      cases hlp0 : m0.localPath with
      | none => exact ih acc m lp hm' hlp hfs hmode
      | some lp0 =>
        try dsimp only
        by_cases hex : (fs0 (captionPath dir lp0 ext)
            || ((acc.map Prod.fst).contains (captionPath dir lp0 ext))) = true
        · rw [if_pos hex]; exact ih acc m lp hm' hlp hfs hmode
        · rw [if_neg hex]
          cases ext with
          | json => exact ih _ m lp hm' hlp hfs hmode
          | txt =>
            try dsimp only
            cases m0.alt with
            | none => exact ih acc m lp hm' hlp hfs hmode
            | some a =>
              try dsimp only
              by_cases ha : (a == "") = true
              · rw [if_pos ha]; exact ih acc m lp hm' hlp hfs hmode
              · rw [if_neg ha]; exact ih _ m lp hm' hlp hfs hmode

/-- Claim C8: the sidecar caption writer writes one caption file per
captionable item, named after the local file's stem with the chosen
extension; it never overwrites an existing file (neither one present before
the call nor one written earlier in the same call), and in txt mode an item
with absent (or empty) alt text is skipped while json mode always writes the
full record. -/
theorem c8_sidecar_caption_writes :
    ∀ (ext : CapExt) (fs0 : String → Bool) (dir : String)
      (imgs : List PinterestMedia),
      (((addCaptionsToFile ext fs0 dir imgs).map Prod.fst).Nodup)
      ∧ (∀ pc ∈ addCaptionsToFile ext fs0 dir imgs,
          fs0 pc.1 = false ∧ ∃ m lp, m ∈ imgs ∧ m.localPath = some lp
            ∧ pc.1 = captionPath dir lp ext
            ∧ (ext = CapExt.json → pc.2 = CaptionContent.jsonRecord m)
            ∧ (ext = CapExt.txt →
                ∃ a, m.alt = some a ∧ ¬a = "" ∧
                  pc.2 = CaptionContent.altText a))
      ∧ (∀ (m : PinterestMedia) (lp : String), m ∈ imgs →
          m.localPath = some lp → fs0 (captionPath dir lp ext) = false →
          (ext = CapExt.json ∨ goodAlt m.alt = true) →
          captionPath dir lp ext ∈
            (addCaptionsToFile ext fs0 dir imgs).map Prod.fst) := by
  intro ext fs0 dir imgs
  obtain ⟨h1, h2⟩ := addCapsAux_writes ext fs0 dir imgs [] (by simp)
  refine ⟨h1, ?_, ?_⟩
  · intro pc hpc
    rcases h2 pc hpc with h | h
    · cases h
    · exact h
  · intro m lp hm hlp hfs hmode
    exact addCapsAux_complete ext fs0 dir imgs [] m lp hm hlp hfs hmode

/-- Witness for C8 at concrete inputs: with an empty directory, a txt-mode
run on one item with alt text writes the sidecar named after the file's
stem. -/
theorem c8_sidecar_caption_writes_witness :
    captionPath "out" "proj/cat.jpg" CapExt.txt ∈
      (addCaptionsToFile CapExt.txt (fun _ => false) "out"
        [⟨1, "s", some "a cat", "o", (0, 0), false, some "proj/cat.jpg"⟩]).map
        Prod.fst :=
  (c8_sidecar_caption_writes CapExt.txt (fun _ => false) "out"
      [⟨1, "s", some "a cat", "o", (0, 0), false, some "proj/cat.jpg"⟩]).2.2
    ⟨1, "s", some "a cat", "o", (0, 0), false, some "proj/cat.jpg"⟩
    "proj/cat.jpg" (List.mem_singleton.mpr rfl) rfl rfl (Or.inr rfl)

/-! ### Claim C9: embedded-metadata caption writer -/

/-- The metadata loop produces one outcome per input item: a failure never
truncates the run. -/
theorem addCaptionsToMeta_length (fail : Nat → Bool × Bool) :
    ∀ (imgs : List PinterestMedia) (start : Nat),
      (addCaptionsToMeta fail start imgs).length = imgs.length := by
  intro imgs
  induction imgs with
  | nil => intro start; rfl
  | cons m rest ih =>
    intro start
    simpa [addCaptionsToMeta] using ih (start + 1)

/-- Pointwise characterisation of the metadata loop: the outcome at position
`i` is the caught result of processing item `i` alone with its own failure
flags. -/
theorem addCaptionsToMeta_get (fail : Nat → Bool × Bool) :
    ∀ (imgs : List PinterestMedia) (start i : Nat) (hi : i < imgs.length)
      (hl : i < (addCaptionsToMeta fail start imgs).length),
      (addCaptionsToMeta fail start imgs).get ⟨i, hl⟩ =
        catchMeta (metaTryItem (fail (start + i)).1 (fail (start + i)).2
          (imgs.get ⟨i, hi⟩)) := by
  intro imgs
  induction imgs with
  | nil => intro start i hi; cases hi
  | cons m rest ih =>
    intro start i hi hl
    cases i with
    | zero => rfl
    | succ j =>
      have hj : j < rest.length := Nat.lt_of_succ_lt_succ hi
      have hl' : j < (addCaptionsToMeta fail (start + 1) rest).length := by
        rw [addCaptionsToMeta_length]; exact hj
      have := ih (start + 1) j hj hl'
      simpa [addCaptionsToMeta, Nat.add_assoc, Nat.add_comm 1 j] using this

/-- Claim C9: the embedded-metadata caption writer skips every video-stream
item and every item whose local file has the `.gif` extension; it produces
one outcome per item (a failure never stops the loop), and whether one item's
metadata write fails has no effect on the outcome of any other item. -/
theorem c9_meta_caption_isolation :
    ∀ (fail : Nat → Bool × Bool) (imgs : List PinterestMedia),
      (addCaptionsToMeta fail 0 imgs).length = imgs.length
      ∧ (∀ (i : Nat) (hi : i < imgs.length)
          (hl : i < (addCaptionsToMeta fail 0 imgs).length),
          (imgs.get ⟨i, hi⟩).videoStream = true →
          (addCaptionsToMeta fail 0 imgs).get ⟨i, hl⟩ =
            MetaOutcome.skippedStream)
      ∧ (∀ (i : Nat) (hi : i < imgs.length)
          (hl : i < (addCaptionsToMeta fail 0 imgs).length) (lp : String),
          (imgs.get ⟨i, hi⟩).videoStream = false →
          (imgs.get ⟨i, hi⟩).localPath = some lp →
          pathSuffix lp = ".gif" →
          (addCaptionsToMeta fail 0 imgs).get ⟨i, hl⟩ = MetaOutcome.skippedGif)
      ∧ (∀ (fail' : Nat → Bool × Bool) (k : Nat),
          (∀ j, ¬j = k → fail j = fail' j) →
          ∀ (i : Nat) (hi : i < imgs.length)
            (hl : i < (addCaptionsToMeta fail 0 imgs).length)
            (hl' : i < (addCaptionsToMeta fail' 0 imgs).length),
            ¬i = k →
            (addCaptionsToMeta fail 0 imgs).get ⟨i, hl⟩ =
              (addCaptionsToMeta fail' 0 imgs).get ⟨i, hl'⟩) := by
  intro fail imgs
  refine ⟨addCaptionsToMeta_length fail imgs 0, ?_, ?_, ?_⟩
  · intro i hi hl hstream
    rw [addCaptionsToMeta_get fail imgs 0 i hi hl]
    unfold metaTryItem
    rw [hstream]
    rfl
  · intro i hi hl lp hstream hlp hgif
    rw [addCaptionsToMeta_get fail imgs 0 i hi hl]
    unfold metaTryItem
    rw [hstream, hlp]
    rw [if_neg (by simp)]
    try dsimp only
    rw [if_pos (by simp [hgif])]
    rfl
  · intro fail' k hagree i hi hl hl' hik
    rw [addCaptionsToMeta_get fail imgs 0 i hi hl,
      addCaptionsToMeta_get fail' imgs 0 i hi hl']
    rw [hagree (0 + i) (by simpa using hik)]

/-- Witness for C9 at concrete inputs: a video-stream item is skipped even
when its metadata write would fail. -/
theorem c9_meta_caption_isolation_witness :
    (addCaptionsToMeta (fun _ => (true, true)) 0
        [⟨1, "s", some "a", "o", (0, 0), true, some "v.mp4"⟩]).get
      ⟨0, by simp [addCaptionsToMeta]⟩ = MetaOutcome.skippedStream :=
  (c9_meta_caption_isolation (fun _ => (true, true))
      [⟨1, "s", some "a", "o", (0, 0), true, some "v.mp4"⟩]).2.1
    0 (by simp) (by simp [addCaptionsToMeta]) rfl

/-! ### Crawl-loop lemmas (used by C2, C3, C7 and C10) -/

/-- An image scan only extends the unique set (at the front) and the emitted
list (at the back), one entry of each per emitted candidate. -/
theorem processImages_shape (num : Nat) (ea : Bool) (pid : Nat) (href : String) :
    ∀ (imgs : List ImgObs) (u : List String) (d : List PinterestMedia),
      ∃ pre add,
        (processImages num ea pid href imgs u d).1 = pre ++ u
        ∧ (processImages num ea pid href imgs u d).2 = d ++ add
        ∧ pre.length = add.length := by
  intro imgs
  induction imgs with
  | nil =>
    intro u d
    exact ⟨[], [], rfl, by simp [processImages], rfl⟩
  | cons img rest ih =>
    intro u d
    unfold processImages
    by_cases hb : (ea && blankAlt img.alt) = true
    · rw [if_pos hb]; exact ih u d
    · rw [if_neg hb]
      cases hsrc : img.src with
      | none => exact ih u d
      | some s =>
        try dsimp only
        by_cases hc : containsSub thumbMarker s.data = true
        · rw [if_pos hc]
          by_cases hmem : u.contains (upgradeSrc s) = true
          · rw [if_pos hmem]; exact ih u d
          · rw [if_neg hmem]
            try dsimp only
            by_cases hcap : num ≤ (upgradeSrc s :: u).length
            · rw [if_pos hcap]
              exact ⟨[upgradeSrc s],
                [mkScrapedMedia pid (upgradeSrc s) img.alt href], rfl, rfl, rfl⟩
            · rw [if_neg hcap]
              obtain ⟨pre, add, h1, h2, h3⟩ := ih (upgradeSrc s :: u)
                (d ++ [mkScrapedMedia pid (upgradeSrc s) img.alt href])
              refine ⟨pre ++ [upgradeSrc s],
                [mkScrapedMedia pid (upgradeSrc s) img.alt href] ++ add,
                ?_, ?_, ?_⟩
              · rw [h1]; simp
              · rw [h2]; simp
              · simp [h3]
        · rw [if_neg hc]; exact ih u d

/-- A container scan only extends the unique set and the emitted list. -/
theorem processDivs_shape (num : Nat) (ea : Bool) :
    ∀ (divs : List DivObs) (u : List String) (d : List PinterestMedia),
      ∃ pre add,
        (processDivs num ea divs u d).1 = pre ++ u
        ∧ (processDivs num ea divs u d).2 = d ++ add
        ∧ pre.length = add.length := by
  intro divs
  induction divs with
  | nil =>
    intro u d
    exact ⟨[], [], rfl, by simp [processDivs], rfl⟩
  | cons dv rest ih =>
    intro u d
    unfold processDivs
    by_cases hcap : num ≤ u.length
    · rw [if_pos hcap]
      exact ⟨[], [], rfl, by simp, rfl⟩
    · rw [if_neg hcap]
      cases hid : dv.pinId with
      | none => exact ih u d
      | some pid =>
        try dsimp only
        obtain ⟨pre1, add1, h11, h12, h13⟩ :=
          processImages_shape num ea pid dv.href dv.imgs u d
        obtain ⟨pre2, add2, h21, h22, h23⟩ :=
          ih (processImages num ea pid dv.href dv.imgs u d).1
            (processImages num ea pid dv.href dv.imgs u d).2
        refine ⟨pre2 ++ pre1, add1 ++ add2, ?_, ?_, ?_⟩
        · rw [h21, h11]; simp
        · rw [h22, h12]; simp
        · simp [h13, h23, Nat.add_comm]

/-- A pass that adds no new unique result leaves the whole state alone. -/
theorem processDivs_eq_of_same_length (num : Nat) (ea : Bool)
    (divs : List DivObs) (u : List String) (d : List PinterestMedia)
    (hl : ((processDivs num ea divs u d).1).length = u.length) :
    processDivs num ea divs u d = (u, d) := by
  obtain ⟨pre, add, h1, h2, h3⟩ := processDivs_shape num ea divs u d
  have hlen0 : pre.length = 0 := by
    have := hl
    rw [h1, List.length_append] at this
    omega
  have hpre : pre = [] := List.eq_nil_of_length_eq_zero hlen0
  have hadd : add = [] := List.eq_nil_of_length_eq_zero (by omega)
  subst hpre hadd
  rw [show processDivs num ea divs u d
      = ((processDivs num ea divs u d).1, (processDivs num ea divs u d).2)
    from rfl, h1, h2]
  simp

theorem processImages_good (num : Nat) (ea : Bool) (pid : Nat) (href : String) :
    ∀ (imgs : List ImgObs) (u : List String) (d : List PinterestMedia),
      CrawlGood u d →
      CrawlGood (processImages num ea pid href imgs u d).1
        (processImages num ea pid href imgs u d).2 := by
  intro imgs
  induction imgs with
  | nil => intro u d hg; simpa [processImages] using hg
  | cons img rest ih =>
    intro u d hg
    unfold processImages
    by_cases hb : (ea && blankAlt img.alt) = true
    · rw [if_pos hb]; exact ih u d hg
    · rw [if_neg hb]
      cases hsrc : img.src with
      | none => exact ih u d hg
      | some s =>
        try dsimp only
        by_cases hc : containsSub thumbMarker s.data = true
        · rw [if_pos hc]
          by_cases hmem : u.contains (upgradeSrc s) = true
          · rw [if_pos hmem]; exact ih u d hg
          · rw [if_neg hmem]
            try dsimp only
            obtain ⟨hnd, hsub, hund, hlen⟩ := hg
            have hnotin : upgradeSrc s ∉ u := by
              intro hcon
              exact hmem (List.contains_iff_exists_mem_beq.mpr
                ⟨upgradeSrc s, hcon, by simp⟩)
            have hg' : CrawlGood (upgradeSrc s :: u)
                (d ++ [mkScrapedMedia pid (upgradeSrc s) img.alt href]) := by
              refine ⟨?_, ?_, ?_, ?_⟩
              · rw [List.map_append, List.nodup_append]
                refine ⟨hnd, by simp, ?_⟩
                intro x hx hx2
                simp only [List.map_cons, List.map_nil, List.mem_singleton,
                  mkScrapedMedia] at hx2
                obtain ⟨m0, hm0, hms⟩ := List.mem_map.mp hx
                have hxu := hsub m0 hm0
                rw [hms, hx2] at hxu
                exact hnotin hxu
              · intro m hm
                rcases List.mem_append.mp hm with h | h
                · exact List.mem_cons_of_mem _ (hsub m h)
                · simp only [List.mem_singleton] at h
                  subst h
                  exact List.mem_cons_self _ _
              · exact List.nodup_cons.mpr ⟨hnotin, hund⟩
              · simp; omega
            by_cases hcap : num ≤ (upgradeSrc s :: u).length
            · rw [if_pos hcap]; exact hg'
            · rw [if_neg hcap]; exact ih _ _ hg'
        · rw [if_neg hc]; exact ih u d hg

theorem processDivs_good (num : Nat) (ea : Bool) :
    ∀ (divs : List DivObs) (u : List String) (d : List PinterestMedia),
      CrawlGood u d →
      CrawlGood (processDivs num ea divs u d).1
        (processDivs num ea divs u d).2 := by
  intro divs
  induction divs with
  | nil => intro u d hg; simpa [processDivs] using hg
  | cons dv rest ih =>
    intro u d hg
    unfold processDivs
    by_cases hcap : num ≤ u.length
    · rw [if_pos hcap]; simpa using hg
    · rw [if_neg hcap]
      cases dv.pinId with
      | none => exact ih u d hg
      | some pid =>
        try dsimp only
        exact ih _ _ (processImages_good num ea pid dv.href dv.imgs u d hg)

/-- The image scan never grows the unique set past `num` when it starts
below it. -/
theorem processImages_cap (num : Nat) (ea : Bool) (pid : Nat) (href : String) :
    ∀ (imgs : List ImgObs) (u : List String) (d : List PinterestMedia),
      u.length < num →
      ((processImages num ea pid href imgs u d).1).length ≤ num := by
  intro imgs
  induction imgs with
  | nil => intro u d h; simpa [processImages] using Nat.le_of_lt h
  | cons img rest ih =>
    intro u d h
    unfold processImages
    by_cases hb : (ea && blankAlt img.alt) = true
    · rw [if_pos hb]; exact ih u d h
    · rw [if_neg hb]
      cases img.src with
      | none => exact ih u d h
      | some s =>
        try dsimp only
        by_cases hc : containsSub thumbMarker s.data = true
        · rw [if_pos hc]
          by_cases hmem : u.contains (upgradeSrc s) = true
          · rw [if_pos hmem]; exact ih u d h
          · rw [if_neg hmem]
            try dsimp only
            by_cases hcap : num ≤ (upgradeSrc s :: u).length
            · rw [if_pos hcap]
              simpa using h
            · rw [if_neg hcap]
              exact ih _ _ (by simpa using Nat.lt_of_not_le hcap)
        · rw [if_neg hc]; exact ih u d h

/-- The container scan never grows the unique set past `num`. -/
theorem processDivs_cap (num : Nat) (ea : Bool) :
    ∀ (divs : List DivObs) (u : List String) (d : List PinterestMedia),
      u.length ≤ num →
      ((processDivs num ea divs u d).1).length ≤ num := by
  intro divs
  induction divs with
  | nil => intro u d h; simpa [processDivs] using h
  | cons dv rest ih =>
    intro u d h
    unfold processDivs
    by_cases hcap : num ≤ u.length
    · rw [if_pos hcap]; simpa using h
    · rw [if_neg hcap]
      cases dv.pinId with
      | none => exact ih u d h
      | some pid =>
        try dsimp only
        have h1 : ((processImages num ea pid dv.href dv.imgs u d).1).length ≤ num :=
          processImages_cap num ea pid dv.href dv.imgs u d (Nat.lt_of_not_le hcap)
        exact ih _ _ h1

/-- One unfolding of the crawl loop. -/
theorem crawlLoopFull_succ (g : Nat → Except Unit (List DivObs)) (num : Nat)
    (ea : Bool) (fuel : Nat) (s : CrawlState) :
    crawlLoopFull g num ea (fuel + 1) s =
      if s.scroll < 800 then
        match g s.scroll with
        | .error _ => .error s
        | .ok divs =>
          let ud := processDivs num ea divs s.unique s.imgs
          let nn := if ud.1.length = s.unique.length then s.noNew + 1 else 0
          if 10 ≤ nn then .ok ⟨ud.1, ud.2, nn, s.scroll⟩
          else crawlLoopFull g num ea fuel ⟨ud.1, ud.2, nn, s.scroll + 1⟩
      else .ok s := rfl

/-- The crawl loop preserves the session invariant and the `num` bound on the
unique set, whether it ends normally or on a socket error. -/
theorem crawlLoopFull_good (g : Nat → Except Unit (List DivObs)) (num : Nat)
    (ea : Bool) :
    ∀ (fuel : Nat) (s : CrawlState),
      CrawlGood s.unique s.imgs → s.unique.length ≤ num →
      CrawlGood (exceptState (crawlLoopFull g num ea fuel s)).unique
          (exceptState (crawlLoopFull g num ea fuel s)).imgs
        ∧ ((exceptState (crawlLoopFull g num ea fuel s)).unique).length ≤ num := by
  intro fuel
  induction fuel with
  | zero => intro s hg hn; exact ⟨hg, hn⟩
  | succ fuel ih =>
    intro s hg hn
    rw [crawlLoopFull_succ]
    by_cases hs : s.scroll < 800
    · rw [if_pos hs]
      cases hgs : g s.scroll with
      | error e => exact ⟨hg, hn⟩
      | ok divs =>
        try dsimp only
        have hg' := processDivs_good num ea divs s.unique s.imgs hg
        have hn' := processDivs_cap num ea divs s.unique s.imgs hn
        by_cases hstall : 10 ≤ (if ((processDivs num ea divs s.unique
            s.imgs).1).length = s.unique.length then s.noNew + 1 else 0)
        · rw [if_pos hstall]
          exact ⟨hg', hn'⟩
        · rw [if_neg hstall]
          exact ih _ hg' hn'
    · rw [if_neg hs]
      exact ⟨hg, hn⟩

/-- The id-deduplication loop only appends, and appends a subsequence of its
input (discovery order is preserved). -/
theorem scrapeDedup_shape (limit : Nat) :
    ∀ (input : List PinterestMedia) (seen : List Nat)
      (acc : List PinterestMedia),
      ∃ t, scrapeDedup limit input seen acc = acc ++ t ∧ t.Sublist input := by
  intro input
  induction input with
  | nil =>
    intro seen acc
    exact ⟨[], by simp [scrapeDedup], List.Sublist.refl []⟩
  | cons img rest ih =>
    intro seen acc
    unfold scrapeDedup
    by_cases hseen : seen.contains img.id = true
    · rw [if_pos hseen]
      obtain ⟨t, ht, hs⟩ := ih seen acc
      exact ⟨t, ht, hs.cons img⟩
    · rw [if_neg hseen]
      try dsimp only
      by_cases hcap : limit ≤ (acc ++ [img]).length
      · rw [if_pos hcap]
        exact ⟨[img], by simp, (List.nil_sublist rest).cons₂ img⟩
      · rw [if_neg hcap]
        obtain ⟨t, ht, hs⟩ := ih (img.id :: seen) (acc ++ [img])
        exact ⟨img :: t, by rw [ht]; simp, hs.cons₂ img⟩

/-- The id-deduplication loop emits each id at most once. -/
theorem scrapeDedup_nodup (limit : Nat) :
    ∀ (input : List PinterestMedia) (seen : List Nat)
      (acc : List PinterestMedia),
      ((acc.map (fun m => m.id)).Nodup) →
      (∀ a ∈ acc, a.id ∈ seen) →
      (((scrapeDedup limit input seen acc).map (fun m => m.id)).Nodup) := by
  intro input
  induction input with
  | nil => intro seen acc hnd hss; simpa [scrapeDedup] using hnd
  | cons img rest ih =>
    intro seen acc hnd hss
    unfold scrapeDedup
    by_cases hseen : seen.contains img.id = true
    · rw [if_pos hseen]; exact ih seen acc hnd hss
    · rw [if_neg hseen]
      try dsimp only
      have hnotseen : img.id ∉ seen := by
        intro hcon
        exact hseen (List.contains_iff_exists_mem_beq.mpr
          ⟨img.id, hcon, by simp⟩)
      have hnd' : (((acc ++ [img]).map (fun m => m.id)).Nodup) := by
        rw [List.map_append, List.nodup_append]
        refine ⟨hnd, by simp, ?_⟩
        intro x hx hx2
        simp only [List.map_cons, List.map_nil, List.mem_singleton] at hx2
        obtain ⟨m0, hm0, hms⟩ := List.mem_map.mp hx
        subst hx2
        exact hnotseen (hms ▸ hss m0 hm0)
      by_cases hcap : limit ≤ (acc ++ [img]).length
      · rw [if_pos hcap]; exact hnd'
      · rw [if_neg hcap]
        refine ih (img.id :: seen) (acc ++ [img]) hnd' ?_
        intro a ha
        rcases List.mem_append.mp ha with h | h
        · exact List.mem_cons_of_mem _ (hss a h)
        · simp only [List.mem_singleton] at h
          subst h
          exact List.mem_cons_self _ _

/-! ### Claim C2: crawl-session dedup, order, and bound -/

/-- Claim C2: the candidates produced by one browser crawl session and then
id-filtered in `scrape_images` number at most `num`, appear in discovery
order (the filtered list is a subsequence of the crawl output), no two of
them share an id, and no two of them share a source URL — the crawl loop
dedups on the upgraded `/originals/` form of each URL, so the thumbnail form
and the full-resolution form of one item collapse to a single candidate. -/
theorem c2_crawl_dedup_bounded :
    ∀ (h : Nat → List DivObs) (num : Nat) (ea : Bool),
      (patchedScrape (pureStream h) num ea).length ≤ num
      ∧ (((patchedScrape (pureStream h) num ea).map (fun m => m.src)).Nodup)
      ∧ (scrapeDedup num (patchedScrape (pureStream h) num ea) [] []).Sublist
          (patchedScrape (pureStream h) num ea)
      ∧ (scrapeDedup num (patchedScrape (pureStream h) num ea) [] []).length ≤ num
      ∧ (((scrapeDedup num (patchedScrape (pureStream h) num ea) [] []).map
          (fun m => m.id)).Nodup)
      ∧ (((scrapeDedup num (patchedScrape (pureStream h) num ea) [] []).map
          (fun m => m.src)).Nodup) := by
  intro h num ea
  have hgood := crawlLoopFull_good (pureStream h) num ea 800 crawlInit
    ⟨by simp [crawlInit], by simp [crawlInit], by simp [crawlInit],
      by simp [crawlInit]⟩ (Nat.zero_le num)
  obtain ⟨⟨hnd, hsub, hund, hlen⟩, hcap⟩ := hgood
  have hraw : (patchedScrape (pureStream h) num ea).length ≤ num :=
    Nat.le_trans hlen hcap
  obtain ⟨t, ht, hs⟩ :=
    scrapeDedup_shape num (patchedScrape (pureStream h) num ea) [] []
  have hfin : scrapeDedup num (patchedScrape (pureStream h) num ea) [] [] = t := by
    simpa using ht
  refine ⟨hraw, hnd, ?_, ?_, ?_, ?_⟩
  · rw [hfin]; exact hs
  · rw [hfin]; exact Nat.le_trans hs.length_le hraw
  · exact scrapeDedup_nodup num (patchedScrape (pureStream h) num ea) [] []
      (by simp) (by simp)
  · rw [hfin]
    exact hnd.sublist (hs.map (fun m => m.src))

/-! ### Claim C7: socket errors abort the crawl with partial results -/

/-- Claim C7: a socket error raised by the next pass of the crawl loop aborts
the loop immediately, carrying exactly the state collected so far, and the
caller receives those candidates as the return value rather than an
exception (`patched_scrape`'s `finally` returns `imgs_data` on both paths,
and the model is a total function). -/
theorem c7_socket_error_partial_results :
    ∀ (g : Nat → Except Unit (List DivObs)) (num : Nat) (ea : Bool)
      (fuel : Nat) (s : CrawlState),
      s.scroll < 800 → g s.scroll = Except.error () →
      crawlLoopFull g num ea (fuel + 1) s = Except.error s
      ∧ (exceptState (crawlLoopFull g num ea (fuel + 1) s)).imgs = s.imgs := by
  intro g num ea fuel s hs hg
  have habort : crawlLoopFull g num ea (fuel + 1) s = Except.error s := by
    rw [crawlLoopFull_succ, if_pos hs, hg]
  exact ⟨habort, by rw [habort]; rfl⟩

/-- Witness for C7 at concrete inputs: a stream whose first pass raises a
socket error yields the (empty) partial result, not an exception. -/
theorem c7_socket_error_partial_results_witness :
    crawlLoopFull (fun _ => Except.error ()) 20 false 800 crawlInit =
        Except.error crawlInit
      ∧ (exceptState (crawlLoopFull (fun _ => Except.error ()) 20 false 800
          crawlInit)).imgs = crawlInit.imgs :=
  c7_socket_error_partial_results (fun _ => Except.error ()) 20 false 799
    crawlInit (by decide) rfl

/-! ### Claim C3: stall counter and termination -/

/-- Running the loop from a state already past the first pass, against passes
that add no new unique results from any state: each pass increments the stall
counter and changes nothing else, and the loop stops exactly when the counter
reaches ten. -/
theorem crawl_stall_run (h : Nat → List DivObs) (num : Nat) (ea : Bool)
    (hst : ∀ i, 1 ≤ i → ∀ u d,
      ((processDivs num ea (h i) u d).1).length = u.length) :
    ∀ (j fuel : Nat) (s : CrawlState),
      s.noNew + (j + 1) = 10 → 1 ≤ s.scroll → s.scroll + (j + 1) ≤ 800 →
      j + 1 ≤ fuel →
      crawlLoopFull (pureStream h) num ea fuel s =
        Except.ok ⟨s.unique, s.imgs, 10, s.scroll + j⟩ := by
  intro j
  induction j with
  | zero =>
    intro fuel s h10 hs1 hs800 hfuel
    obtain ⟨f, rfl⟩ : ∃ f, fuel = f + 1 := ⟨fuel - 1, by omega⟩
    rw [crawlLoopFull_succ, if_pos (show s.scroll < 800 by omega)]
    simp only [pureStream]
    try dsimp only
    rw [processDivs_eq_of_same_length num ea (h s.scroll) s.unique s.imgs
      (hst s.scroll hs1 s.unique s.imgs)]
    try dsimp only
    rw [if_pos rfl, if_pos (show 10 ≤ s.noNew + 1 by omega)]
    have hnn : s.noNew + 1 = 10 := by omega
    rw [hnn]
    simp
  | succ j ihj =>
    intro fuel s h10 hs1 hs800 hfuel
    obtain ⟨f, rfl⟩ : ∃ f, fuel = f + 1 := ⟨fuel - 1, by omega⟩
    rw [crawlLoopFull_succ, if_pos (show s.scroll < 800 by omega)]
    simp only [pureStream]
    try dsimp only
    rw [processDivs_eq_of_same_length num ea (h s.scroll) s.unique s.imgs
      (hst s.scroll hs1 s.unique s.imgs)]
    try dsimp only
    rw [if_pos rfl, if_neg (show ¬10 ≤ s.noNew + 1 by omega)]
    have hrec := ihj f ⟨s.unique, s.imgs, s.noNew + 1, s.scroll + 1⟩
      (show s.noNew + 1 + (j + 1) = 10 by omega)
      (show 1 ≤ s.scroll + 1 by omega)
      (show s.scroll + 1 + (j + 1) ≤ 800 by omega)
      (show j + 1 ≤ f by omega)
    rw [hrec]
    have : s.scroll + 1 + j = s.scroll + (j + 1) := by omega
    rw [this]

/-- The pass counter never passes the hard ceiling of 800, socket abort or
not. -/
theorem crawlLoopFull_scroll_le (g : Nat → Except Unit (List DivObs))
    (num : Nat) (ea : Bool) :
    ∀ (fuel : Nat) (s : CrawlState), s.scroll ≤ 800 →
      (exceptState (crawlLoopFull g num ea fuel s)).scroll ≤ 800 := by
  intro fuel
  induction fuel with
  | zero => intro s hsc; exact hsc
  | succ fuel ih =>
    intro s hsc
    rw [crawlLoopFull_succ]
    by_cases hs : s.scroll < 800
    · rw [if_pos hs]
      cases hgs : g s.scroll with
      | error e => exact hsc
      | ok divs =>
        try dsimp only
        by_cases hstall : 10 ≤ (if ((processDivs num ea divs s.unique
            s.imgs).1).length = s.unique.length then s.noNew + 1 else 0)
        · rw [if_pos hstall]; exact hsc
        · rw [if_neg hstall]
          exact ih _ (show s.scroll + 1 ≤ 800 by omega)
    · rw [if_neg hs]; exact hsc

/-- Claim C3: a pass adding no new unique candidate increments the stall
counter and one adding any resets it (this is how `crawlLoopFull` steps); the
loop stops as soon as ten consecutive no-new passes occur, and in any case
the pass counter stays within the hard ceiling of 800.  In particular a
source yielding nothing new after its first pass ends the session with the
stall counter at ten and at most ten passes counted — far below the
ceiling. -/
theorem c3_stall_termination :
    ∀ (num : Nat) (ea : Bool),
      (∀ (g : Nat → Except Unit (List DivObs)),
          (exceptState (crawlLoopFull g num ea 800 crawlInit)).scroll ≤ 800)
      ∧ (∀ (h : Nat → List DivObs),
          (∀ i, 1 ≤ i → ∀ u d,
            ((processDivs num ea (h i) u d).1).length = u.length) →
          ∃ s : CrawlState,
            crawlLoopFull (pureStream h) num ea 800 crawlInit = Except.ok s
            ∧ s.noNew = 10 ∧ s.scroll ≤ 10) := by
  intro num ea
  constructor
  · intro g
    exact crawlLoopFull_scroll_le g num ea 800 crawlInit (Nat.zero_le 800)
  · intro h hst
    show ∃ s : CrawlState,
      crawlLoopFull (pureStream h) num ea (799 + 1) crawlInit = Except.ok s
      ∧ s.noNew = 10 ∧ s.scroll ≤ 10
    rw [crawlLoopFull_succ, if_pos (show crawlInit.scroll < 800 by decide)]
    simp only [pureStream]
    try dsimp only [crawlInit]
    by_cases hz : ((processDivs num ea (h 0) [] []).1).length =
        ([] : List String).length
    · rw [if_pos hz, if_neg (show ¬10 ≤ 0 + 1 by omega)]
      have hrec := crawl_stall_run h num ea hst 8 799
        ⟨(processDivs num ea (h 0) [] []).1,
          (processDivs num ea (h 0) [] []).2, 0 + 1, 0 + 1⟩
        (by dsimp only; try omega) (by dsimp only; try omega)
        (by dsimp only; try omega) (by omega)
      rw [hrec]
      exact ⟨_, rfl, rfl, by dsimp only; omega⟩
    · rw [if_neg hz, if_neg (show ¬10 ≤ 0 by omega)]
      have hrec := crawl_stall_run h num ea hst 9 799
        ⟨(processDivs num ea (h 0) [] []).1,
          (processDivs num ea (h 0) [] []).2, 0, 0 + 1⟩
        (by dsimp only; try omega) (by dsimp only; try omega)
        (by dsimp only; try omega) (by omega)
      rw [hrec]
      exact ⟨_, rfl, rfl, by dsimp only; omega⟩

/-- Witness for C3 at concrete inputs: a source with nothing visible on any
pass ends the session with the stall counter at ten, not at the pass
ceiling. -/
theorem c3_stall_termination_witness :
    ∃ s : CrawlState,
      crawlLoopFull (pureStream (fun _ => [])) 5 false 800 crawlInit =
          Except.ok s
        ∧ s.noNew = 10 ∧ s.scroll ≤ 10 :=
  (c3_stall_termination 5 false).2 (fun _ => []) (fun _ _ _ _ => rfl)

/-! ### Claim C10: the `/236x/` thumbnail marker gates emission -/

/-- A scan over images none of whose sources carries the thumbnail marker
emits nothing and records nothing. -/
theorem processImages_no_marker (num : Nat) (ea : Bool) (pid : Nat)
    (href : String) :
    ∀ (imgs : List ImgObs) (u : List String) (d : List PinterestMedia),
      (∀ img ∈ imgs, ∀ s, img.src = some s →
        containsSub thumbMarker s.data = false) →
      processImages num ea pid href imgs u d = (u, d) := by
  intro imgs
  induction imgs with
  | nil => intro u d hno; rfl
  | cons img rest ih =>
    intro u d hno
    have hrest : ∀ img' ∈ rest, ∀ s, img'.src = some s →
        containsSub thumbMarker s.data = false :=
      fun img' hm s hs => hno img' (List.mem_cons_of_mem _ hm) s hs
    unfold processImages
    by_cases hb : (ea && blankAlt img.alt) = true
    · rw [if_pos hb]; exact ih u d hrest
    · rw [if_neg hb]
      cases hsrc : img.src with
      | none => exact ih u d hrest
      | some s =>
        try dsimp only
        rw [if_neg (by
          rw [hno img (List.mem_cons_self _ _) s hsrc]
          simp)]
        exact ih u d hrest

/-- A pass over containers none of whose image sources carries the thumbnail
marker leaves the state alone, even when the pin ids are new and unique. -/
theorem processDivs_no_marker (num : Nat) (ea : Bool) :
    ∀ (divs : List DivObs) (u : List String) (d : List PinterestMedia),
      (∀ dv ∈ divs, ∀ img ∈ dv.imgs, ∀ s, img.src = some s →
        containsSub thumbMarker s.data = false) →
      processDivs num ea divs u d = (u, d) := by
  intro divs
  induction divs with
  | nil => intro u d hno; rfl
  | cons dv rest ih =>
    intro u d hno
    have hrest : ∀ dv' ∈ rest, ∀ img ∈ dv'.imgs, ∀ s, img.src = some s →
        containsSub thumbMarker s.data = false :=
      fun dv' hm => hno dv' (List.mem_cons_of_mem _ hm)
    unfold processDivs
    by_cases hcap : num ≤ u.length
    · rw [if_pos hcap]
    · rw [if_neg hcap]
      cases dv.pinId with
      | none => exact ih u d hrest
      | some pid =>
        try dsimp only
        rw [processImages_no_marker num ea pid dv.href dv.imgs u d
          (hno dv (List.mem_cons_self _ _))]
        exact ih u d hrest

/-- If no pass ever shows an image whose source carries the thumbnail marker,
the crawl loop never emits a candidate. -/
theorem crawlLoopFull_no_marker (h : Nat → List DivObs) (num : Nat)
    (ea : Bool)
    (hno : ∀ i, ∀ dv ∈ h i, ∀ img ∈ dv.imgs, ∀ s, img.src = some s →
      containsSub thumbMarker s.data = false) :
    ∀ (fuel : Nat) (s : CrawlState),
      (exceptState (crawlLoopFull (pureStream h) num ea fuel s)).imgs =
        s.imgs := by
  intro fuel
  induction fuel with
  | zero => intro s; rfl
  | succ fuel ih =>
    intro s
    rw [crawlLoopFull_succ]
    by_cases hs : s.scroll < 800
    · rw [if_pos hs]
      simp only [pureStream]
      try dsimp only
      rw [processDivs_no_marker num ea (h s.scroll) s.unique s.imgs
        (hno s.scroll)]
      try dsimp only
      rw [if_pos rfl]
      by_cases hstall : 10 ≤ s.noNew + 1
      · rw [if_pos hstall]; rfl
      · rw [if_neg hstall]
        exact ih ⟨s.unique, s.imgs, s.noNew + 1, s.scroll + 1⟩
    · rw [if_neg hs]; rfl

/-- Provenance of an emitted candidate through one image scan: it was already
there, or it comes from a scanned image whose source carries the marker, with
its source upgraded to the `/originals/` form. -/
theorem processImages_prov (num : Nat) (ea : Bool) (pid : Nat)
    (href : String) :
    ∀ (imgs : List ImgObs) (u : List String) (d : List PinterestMedia)
      (m : PinterestMedia),
      m ∈ (processImages num ea pid href imgs u d).2 →
      m ∈ d ∨ ∃ img ∈ imgs, ∃ s, img.src = some s
        ∧ containsSub thumbMarker s.data = true ∧ m.src = upgradeSrc s := by
  intro imgs
  induction imgs with
  | nil => intro u d m hm; exact Or.inl hm
  | cons img rest ih =>
    intro u d m hm
    unfold processImages at hm
    by_cases hb : (ea && blankAlt img.alt) = true
    · rw [if_pos hb] at hm
      rcases ih u d m hm with h | ⟨img', hmem, s, hs⟩
      · exact Or.inl h
      · exact Or.inr ⟨img', List.mem_cons_of_mem _ hmem, s, hs⟩
    · rw [if_neg hb] at hm
      cases hsrc : img.src with
      | none =>
        rw [hsrc] at hm
        rcases ih u d m hm with h | ⟨img', hmem, s, hs⟩
        · exact Or.inl h
        · exact Or.inr ⟨img', List.mem_cons_of_mem _ hmem, s, hs⟩
      | some s =>
        rw [hsrc] at hm
        try dsimp only at hm
        by_cases hc : containsSub thumbMarker s.data = true
        · rw [if_pos hc] at hm
          by_cases hmem : u.contains (upgradeSrc s) = true
          · rw [if_pos hmem] at hm
            rcases ih u d m hm with h | ⟨img', hmem', s', hs⟩
            · exact Or.inl h
            · exact Or.inr ⟨img', List.mem_cons_of_mem _ hmem', s', hs⟩
          · rw [if_neg hmem] at hm
            try dsimp only at hm
            by_cases hcap : num ≤ (upgradeSrc s :: u).length
            · rw [if_pos hcap] at hm
              rcases List.mem_append.mp hm with h | h
              · exact Or.inl h
              · simp only [List.mem_singleton] at h
                subst h
                exact Or.inr ⟨img, List.mem_cons_self _ _, s, hsrc, hc, rfl⟩
            · rw [if_neg hcap] at hm
              rcases ih _ _ m hm with h | ⟨img', hmem', s', hs⟩
              · rcases List.mem_append.mp h with h' | h'
                · exact Or.inl h'
                · simp only [List.mem_singleton] at h'
                  subst h'
                  exact Or.inr ⟨img, List.mem_cons_self _ _, s, hsrc, hc, rfl⟩
              · exact Or.inr ⟨img', List.mem_cons_of_mem _ hmem', s', hs⟩
        · rw [if_neg hc] at hm
          rcases ih u d m hm with h | ⟨img', hmem', s', hs⟩
          · exact Or.inl h
          · exact Or.inr ⟨img', List.mem_cons_of_mem _ hmem', s', hs⟩

/-- Provenance of an emitted candidate through one container pass. -/
theorem processDivs_prov (num : Nat) (ea : Bool) :
    ∀ (divs : List DivObs) (u : List String) (d : List PinterestMedia)
      (m : PinterestMedia),
      m ∈ (processDivs num ea divs u d).2 →
      m ∈ d ∨ ∃ dv ∈ divs, ∃ img ∈ dv.imgs, ∃ s, img.src = some s
        ∧ containsSub thumbMarker s.data = true ∧ m.src = upgradeSrc s := by
  intro divs
  induction divs with
  | nil => intro u d m hm; exact Or.inl hm
  | cons dv rest ih =>
    intro u d m hm
    unfold processDivs at hm
    by_cases hcap : num ≤ u.length
    · rw [if_pos hcap] at hm
      exact Or.inl hm
    · rw [if_neg hcap] at hm
      cases hid : dv.pinId with
      | none =>
        rw [hid] at hm
        rcases ih u d m hm with h | ⟨dv', hmem, rest'⟩
        · exact Or.inl h
        · exact Or.inr ⟨dv', List.mem_cons_of_mem _ hmem, rest'⟩
      | some pid =>
        rw [hid] at hm
        try dsimp only at hm
        rcases ih _ _ m hm with h | ⟨dv', hmem, rest'⟩
        · rcases processImages_prov num ea pid dv.href dv.imgs u d m h with
            h' | ⟨img, hmem', s, hs⟩
          · exact Or.inl h'
          · exact Or.inr ⟨dv, List.mem_cons_self _ _, img, hmem', s, hs⟩
        · exact Or.inr ⟨dv', List.mem_cons_of_mem _ hmem, rest'⟩

/-- Provenance of an emitted candidate through the whole crawl loop. -/
theorem crawlLoopFull_prov (h : Nat → List DivObs) (num : Nat) (ea : Bool) :
    ∀ (fuel : Nat) (s : CrawlState) (m : PinterestMedia),
      m ∈ (exceptState (crawlLoopFull (pureStream h) num ea fuel s)).imgs →
      m ∈ s.imgs ∨ ∃ i, ∃ dv ∈ h i, ∃ img ∈ dv.imgs, ∃ s', img.src = some s'
        ∧ containsSub thumbMarker s'.data = true ∧ m.src = upgradeSrc s' := by
  intro fuel
  induction fuel with
  | zero => intro s m hm; exact Or.inl hm
  | succ fuel ih =>
    intro s m hm
    rw [crawlLoopFull_succ] at hm
    by_cases hs : s.scroll < 800
    · rw [if_pos hs] at hm
      simp only [pureStream] at hm
      try dsimp only at hm
      by_cases hstall : 10 ≤ (if ((processDivs num ea (h s.scroll) s.unique
          s.imgs).1).length = s.unique.length then s.noNew + 1 else 0)
      · rw [if_pos hstall] at hm
        rcases processDivs_prov num ea (h s.scroll) s.unique s.imgs m hm with
          h' | ⟨dv, hmem, rest'⟩
        · exact Or.inl h'
        · exact Or.inr ⟨s.scroll, dv, hmem, rest'⟩
      · rw [if_neg hstall] at hm
        rcases ih _ m hm with h' | hfound
        · rcases processDivs_prov num ea (h s.scroll) s.unique s.imgs m h' with
            h'' | ⟨dv, hmem, rest'⟩
          · exact Or.inl h''
          · exact Or.inr ⟨s.scroll, dv, hmem, rest'⟩
        · exact Or.inr hfound
    · rw [if_neg hs] at hm
      exact Or.inl hm

/-- Claim C10: a discovered image becomes a candidate only if its source URL
carries the thumbnail marker `/236x/` — a stream with no marked source yields
no candidates at all, whatever the pin ids are — and every emitted
candidate's source is a discovered marked source with `/236x/` replaced by
`/originals/`. -/
theorem c10_thumbnail_marker_gate :
    ∀ (h : Nat → List DivObs) (num : Nat) (ea : Bool),
      ((∀ i, ∀ dv ∈ h i, ∀ img ∈ dv.imgs, ∀ s, img.src = some s →
          containsSub thumbMarker s.data = false) →
        patchedScrape (pureStream h) num ea = [])
      ∧ (∀ m ∈ patchedScrape (pureStream h) num ea,
          ∃ i, ∃ dv ∈ h i, ∃ img ∈ dv.imgs, ∃ s, img.src = some s
            ∧ containsSub thumbMarker s.data = true
            ∧ m.src = upgradeSrc s) := by
  intro h num ea
  constructor
  · intro hno
    exact crawlLoopFull_no_marker h num ea hno 800 crawlInit
  · intro m hm
    rcases crawlLoopFull_prov h num ea 800 crawlInit m hm with h' | hfound
    · cases h'
    · exact hfound

/-- Witness for C10 at concrete inputs: a source whose only image lacks the
thumbnail marker, despite a fresh unique pin id, produces no candidates. -/
theorem c10_thumbnail_marker_gate_witness :
    patchedScrape (pureStream (fun _ =>
        [⟨some 7, "https://p/x", [⟨some "alt", some "https://i/originals/a.jpg"⟩]⟩]))
      20 false = [] :=
  (c10_thumbnail_marker_gate (fun _ =>
      [⟨some 7, "https://p/x", [⟨some "alt", some "https://i/originals/a.jpg"⟩]⟩])
    20 false).1 (by
      intro i dv hdv img himg s hs
      simp only [List.mem_singleton] at hdv
      subst hdv
      simp only [List.mem_singleton] at himg
      subst himg
      simp only [Option.some.injEq] at hs
      subst hs
      decide)

/-! ### Claim C4: bounded recursive expansion -/

/-- A mapped sum is bounded by length times a pointwise bound. -/
theorem sum_map_le_length_mul {α : Type} (l : List α) (f : α → Nat) (M : Nat)
    (hf : ∀ x ∈ l, f x ≤ M) : (l.map f).sum ≤ l.length * M := by
  induction l with
  | nil => simp
  | cons x xs ih =>
    simp only [List.map_cons, List.sum_cons, List.length_cons]
    have h1 := hf x (List.mem_cons_self _ _)
    have h2 := ih (fun y hy => hf y (List.mem_cons_of_mem _ hy))
    calc f x + (xs.map f).sum ≤ M + xs.length * M := Nat.add_le_add h1 h2
    _ = (xs.length + 1) * M := by ring

theorem geomBound_pos : ∀ (d b : Nat), 1 ≤ geomBound d b := by
  intro d b
  cases d with
  | zero => exact Nat.le_refl 1
  | succ d => exact Nat.le_add_right 1 _

/-- Claim C4: with depth budget `0` or an empty run, `scrape_images` makes no
recursive call; with positive depth and a non-empty run it makes exactly one
recursive call per downloaded item whose id does not match the extracted
original pin id, each at the synthetic visual-search URL with depth decreased
by one; the total number of pipeline invocations is one for the root plus the
invocations of the listed children, and is bounded by the geometric bound
when each level scrapes at most `B` items. -/
theorem c4_recursive_expansion :
    ∀ (disc : String → List Nat) (url : String) (d B : Nat),
      (scrapeDirectCalls disc 0 url = [] ∧ scrapeInvocations disc 0 url = 1)
      ∧ (disc url = [] →
          scrapeDirectCalls disc d url = [] ∧ scrapeInvocations disc d url = 1)
      ∧ (∀ d', d = d' + 1 → ¬disc url = [] →
          (scrapeDirectCalls disc d url).length =
              (childSeedsOf url (disc url)).length
            ∧ ∀ c ∈ scrapeDirectCalls disc d url, c.2 = d'
                ∧ ∃ i, i ∈ disc url ∧ ¬extractPinId url = some (toString i)
                  ∧ c.1 = visualSearchUrl i)
      ∧ (scrapeInvocations disc d url =
          1 + ((scrapeDirectCalls disc d url).map
            (fun c => scrapeInvocations disc c.2 c.1)).sum)
      ∧ ((∀ u, (disc u).length ≤ B) →
          scrapeInvocations disc d url ≤ geomBound d B) := by
  intro disc url d B
  refine ⟨⟨rfl, rfl⟩, ?_, ?_, ?_, ?_⟩
  · intro hurl
    cases d with
    | zero => exact ⟨rfl, rfl⟩
    | succ d =>
      have he : (disc url).isEmpty = true := by simp [hurl]
      constructor
      · unfold scrapeDirectCalls
        try dsimp only
        rw [if_pos he]
      · unfold scrapeInvocations
        try dsimp only
        rw [if_pos he]
  · rintro d' rfl hne
    have he : ¬(disc url).isEmpty = true := by
      simpa [List.isEmpty_iff] using hne
    constructor
    · unfold scrapeDirectCalls
      try dsimp only
      rw [if_neg he]
      simp
    · intro c hc
      unfold scrapeDirectCalls at hc
      try dsimp only at hc
      rw [if_neg he] at hc
      obtain ⟨i, hi, hci⟩ := List.mem_map.mp hc
      obtain ⟨hii, hpred⟩ := List.mem_filter.mp hi
      subst hci
      refine ⟨rfl, i, hii, ?_, rfl⟩
      simpa using hpred
  · cases d with
    | zero => rfl
    | succ d =>
      by_cases he : (disc url).isEmpty = true
      · have h1 : scrapeInvocations disc (d + 1) url = 1 := by
          unfold scrapeInvocations
          try dsimp only
          rw [if_pos he]
        have h2 : scrapeDirectCalls disc (d + 1) url = [] := by
          unfold scrapeDirectCalls
          try dsimp only
          rw [if_pos he]
        rw [h1, h2]
        simp
      · have h1 : scrapeInvocations disc (d + 1) url =
            1 + ((childSeedsOf url (disc url)).map
              (fun i => scrapeInvocations disc d (visualSearchUrl i))).sum := by
          simp only [scrapeInvocations]
          rw [if_neg he]
        have h2 : scrapeDirectCalls disc (d + 1) url =
            (childSeedsOf url (disc url)).map
              (fun i => (visualSearchUrl i, d)) := by
          unfold scrapeDirectCalls
          try dsimp only
          rw [if_neg he]
        rw [h1, h2, List.map_map]
        rfl
  · intro hB
    induction d generalizing url with
    | zero => exact Nat.le_refl 1
    | succ d ih =>
      unfold scrapeInvocations geomBound
      try dsimp only
      by_cases he : (disc url).isEmpty = true
      · rw [if_pos he]
        exact Nat.le_add_right 1 _
      · rw [if_neg he]
        have hsum : ((childSeedsOf url (disc url)).map
            (fun i => scrapeInvocations disc d (visualSearchUrl i))).sum ≤
              (childSeedsOf url (disc url)).length * geomBound d B :=
          sum_map_le_length_mul _ _ _ (fun x _ => ih (visualSearchUrl x))
        have hlen : (childSeedsOf url (disc url)).length ≤ B :=
          Nat.le_trans (List.length_filter_le _ _) (hB url)
        refine Nat.add_le_add_left ?_ 1
        calc ((childSeedsOf url (disc url)).map
            (fun i => scrapeInvocations disc d (visualSearchUrl i))).sum
            ≤ (childSeedsOf url (disc url)).length * geomBound d B := hsum
          _ ≤ B * geomBound d B := Nat.mul_le_mul_right _ hlen

/-- Witness for C4 at concrete inputs: a run scraping one item per level
with depth budget 1 stays within the geometric bound. -/
theorem c4_recursive_expansion_witness :
    scrapeInvocations (fun u => if u = "seed" then [7] else []) 1 "seed" ≤
      geomBound 1 1 :=
  (c4_recursive_expansion (fun u => if u = "seed" then [7] else [])
      "seed" 1 1).2.2.2.2
    (by
      intro u
      by_cases hu : u = "seed" <;> simp [hu])

/-! ### Claim C1: the registry check of `download_media` -/

theorem lookupReg_eq_none (k : Nat) :
    ∀ (r : Registry), k ∉ regKeys r → lookupReg r k = none := by
  intro r
  induction r with
  | nil => intro h; rfl
  | cons kv rest ih =>
    intro h
    have hne : (kv.1 == k) = false := by
      rw [Bool.eq_false_iff]
      intro hcon
      have hk : kv.1 = k := by simpa using hcon
      exact h (by
        simp only [regKeys, List.map_cons, List.mem_cons]
        exact Or.inl hk.symm)
    have hrest : k ∉ regKeys rest := by
      intro hcon
      exact h (by
        simp only [regKeys, List.map_cons, List.mem_cons]
        exact Or.inr hcon)
    unfold lookupReg
    rw [List.find?_cons]
    try dsimp only
    rw [hne]
    exact ih hrest

theorem lookupReg_of_mem (k : Nat) (e : RegEntry) :
    ∀ (r : Registry), (regKeys r).Nodup → (k, e) ∈ r →
      lookupReg r k = some e := by
  intro r
  induction r with
  | nil => intro _ h; cases h
  | cons kv rest ih =>
    intro hnd hmem
    simp only [regKeys, List.map_cons, List.nodup_cons] at hnd
    obtain ⟨hk1, hnd'⟩ := hnd
    rcases List.mem_cons.mp hmem with rfl | hmem'
    · unfold lookupReg
      rw [List.find?_cons]
      try dsimp only
      rw [show ((k, e).1 == k) = true from by simp]
      rfl
    · have hne : (kv.1 == k) = false := by
        rw [Bool.eq_false_iff]
        intro hcon
        have hk : kv.1 = k := by simpa using hcon
        subst hk
        exact hk1 (List.mem_map.mpr ⟨(kv.1, e), hmem', rfl⟩)
      unfold lookupReg
      rw [List.find?_cons]
      try dsimp only
      rw [hne]
      exact ih hnd' hmem'

/-- Looking a key up in a filtered registry, when keys are unique: the entry
survives iff the predicate holds of it. -/
theorem lookupReg_filter (P : Nat × RegEntry → Bool) (k : Nat) :
    ∀ (r : Registry), (regKeys r).Nodup →
      lookupReg (r.filter P) k =
        (match lookupReg r k with
          | some e => if P (k, e) = true then some e else none
          | none => none) := by
  intro r
  induction r with
  | nil => intro _; rfl
  | cons kv rest ih =>
    intro hnd
    simp only [regKeys, List.map_cons, List.nodup_cons] at hnd
    obtain ⟨hk1, hnd'⟩ := hnd
    by_cases hbeq : (kv.1 == k) = true
    · have hk : kv.1 = k := by simpa using hbeq
      have hlk : lookupReg (kv :: rest) k = some kv.2 := by
        unfold lookupReg
        rw [List.find?_cons]
        try dsimp only
        rw [hbeq]
        rfl
      rw [hlk]
      by_cases hP : P kv = true
      · rw [List.filter_cons_of_pos hP]
        have hlk2 : lookupReg (kv :: rest.filter P) k = some kv.2 := by
          unfold lookupReg
          rw [List.find?_cons]
          try dsimp only
          rw [hbeq]
          rfl
        rw [hlk2]
        try dsimp only
        rw [if_pos (by rw [show (k, kv.2) = kv from by rw [← hk]]; exact hP)]
      · rw [List.filter_cons_of_neg (by simpa using hP)]
        have hnotin : k ∉ regKeys (rest.filter P) := by
          intro hcon
          rw [← hk] at hcon
          obtain ⟨kv', hkv', hfst⟩ := List.mem_map.mp hcon
          exact hk1 (List.mem_map.mpr ⟨kv', (List.mem_filter.mp hkv').1, hfst⟩)
        rw [lookupReg_eq_none k _ hnotin]
        try dsimp only
        rw [if_neg (by rw [show (k, kv.2) = kv from by rw [← hk]]; simpa using hP)]
    · have hne : (kv.1 == k) = false := Bool.eq_false_iff.mpr hbeq
      have hstep : lookupReg (kv :: rest) k = lookupReg rest k := by
        unfold lookupReg
        rw [List.find?_cons]
        try dsimp only
        rw [hne]
      rw [hstep]
      by_cases hP : P kv = true
      · rw [List.filter_cons_of_pos hP]
        have hstep2 : lookupReg (kv :: rest.filter P) k =
            lookupReg (rest.filter P) k := by
          unfold lookupReg
          rw [List.find?_cons]
          try dsimp only
          rw [hne]
        rw [hstep2]
        exact ih hnd'
      · rw [List.filter_cons_of_neg (by simpa using hP)]
        exact ih hnd'

theorem mem_of_lookupReg (k : Nat) (e : RegEntry) :
    ∀ (r : Registry), lookupReg r k = some e → (k, e) ∈ r := by
  intro r
  induction r with
  | nil => intro h; cases h
  | cons kv rest ih =>
    intro h
    unfold lookupReg at h
    rw [List.find?_cons] at h
    by_cases hbeq : (kv.1 == k) = true
    · rw [hbeq] at h
      have hk : kv.1 = k := by simpa using hbeq
      have he : kv.2 = e := by
        simpa using h
      rw [show (k, e) = kv from by rw [← hk, ← he]]
      exact List.mem_cons_self _ _
    · rw [Bool.eq_false_iff.mpr hbeq] at h
      exact List.mem_cons_of_mem _ (ih h)

/-- Processing one item advances the closed-form state by that item. -/
theorem filterStep_stateFor (ex : String → Bool) (reg0 : Registry)
    (hnd : (regKeys reg0).Nodup) :
    ∀ (pre : List PinterestMedia) (item : PinterestMedia),
      filterStep ex (c1StateFor ex reg0 pre) item =
        c1StateFor ex reg0 (pre ++ [item]) := by
  intro pre item
  have hlk := lookupReg_filter
    (fun kv => ex kv.2.path || pre.all (fun m => !(m.id == kv.1)))
    item.id reg0 hnd
  unfold filterStep
  dsimp only [c1StateFor]
  cases h0 : lookupReg reg0 item.id with
  | none =>
    have hlkv : lookupReg (reg0.filter
        (fun kv => ex kv.2.path || pre.all (fun m => !(m.id == kv.1))))
        item.id = none := by
      rw [hlk, h0]
    rw [hlkv]
    try dsimp only
    have hsat : satisfiedB ex reg0 item = false := by
      unfold satisfiedB
      rw [h0]
    have hupd : regUpdate ex reg0 item = item := by
      unfold regUpdate
      rw [h0]
    simp only [FilterState.mk.injEq]
    refine ⟨?_, ?_, ?_⟩
    · simp [List.filter_append, hsat]
    · apply List.filter_congr
      intro kv hkv
      have hne : (item.id == kv.1) = false := by
        rw [beq_eq_false_iff_ne]
        intro hcon
        have hmem := lookupReg_of_mem kv.1 kv.2 reg0 hnd
          (by simpa using hkv)
        rw [← hcon, h0] at hmem
        cases hmem
      simp [List.all_append, hne]
    · simp [List.map_append, hupd]
  | some e =>
    have hkv2e : ∀ kv, kv ∈ reg0 → kv.1 = item.id → kv.2 = e := by
      intro kv hkv hk1
      have hmem := lookupReg_of_mem kv.1 kv.2 reg0 hnd (by simpa using hkv)
      rw [hk1, h0] at hmem
      simpa using hmem.symm
    by_cases he : ex e.path = true
    · have hP : (fun kv => ex kv.2.path ||
          pre.all (fun m => !(m.id == kv.1))) (item.id, e) = true := by
        simp [he]
      have hlkv : lookupReg (reg0.filter
          (fun kv => ex kv.2.path || pre.all (fun m => !(m.id == kv.1))))
          item.id = some e := by
        rw [hlk, h0]
        try dsimp only
        rw [if_pos hP]
      rw [hlkv]
      try dsimp only
      rw [if_pos he]
      have hsat : satisfiedB ex reg0 item = true := by
        unfold satisfiedB
        rw [h0]
        exact he
      have hupd : regUpdate ex reg0 item = setLocalPath item e.path := by
        unfold regUpdate
        rw [h0]
        try dsimp only
        rw [if_pos he]
      simp only [FilterState.mk.injEq]
      refine ⟨?_, ?_, ?_⟩
      · simp [List.filter_append, hsat]
      · apply List.filter_congr
        intro kv hkv
        by_cases hk1 : (item.id == kv.1) = true
        · have hkeq : kv.1 = item.id := (by simpa using hk1 : item.id = kv.1).symm
          have h2 := hkv2e kv hkv hkeq
          simp [List.all_append, h2, he]
        · have hfalse : (item.id == kv.1) = false := Bool.eq_false_iff.mpr hk1
          simp [List.all_append, hfalse]
      · simp [List.map_append, hupd]
    · have hef : ex e.path = false := Bool.eq_false_iff.mpr he
      have hsat : satisfiedB ex reg0 item = false := by
        unfold satisfiedB
        rw [h0]
        exact hef
      have hupd : regUpdate ex reg0 item = item := by
        unfold regUpdate
        rw [h0]
        try dsimp only
        rw [if_neg he]
      by_cases hall : pre.all (fun m => !(m.id == item.id)) = true
      · have hP : (fun kv => ex kv.2.path ||
            pre.all (fun m => !(m.id == kv.1))) (item.id, e) = true := by
          simp only [hef, Bool.false_or]
          exact hall
        have hlkv : lookupReg (reg0.filter
            (fun kv => ex kv.2.path || pre.all (fun m => !(m.id == kv.1))))
            item.id = some e := by
          rw [hlk, h0]
          try dsimp only
          rw [if_pos hP]
        rw [hlkv]
        try dsimp only
        rw [if_neg he]
        simp only [FilterState.mk.injEq]
        refine ⟨?_, ?_, ?_⟩
        · simp [List.filter_append, hsat]
        · unfold eraseReg
          rw [List.filter_filter]
          apply List.filter_congr
          intro kv hkv
          by_cases hk1 : (kv.1 == item.id) = true
          · have hkeq : kv.1 = item.id := by simpa using hk1
            have h2 := hkv2e kv hkv hkeq
            have hsymm : (item.id == kv.1) = true := by simp [hkeq]
            simp [List.all_append, hk1, h2, hef, hsymm]
          · have hkne : kv.1 ≠ item.id := by simpa using hk1
            have hsymm : (item.id == kv.1) = false :=
              beq_eq_false_iff_ne.mpr (Ne.symm hkne)
            simp [List.all_append, Bool.eq_false_iff.mpr hk1, hsymm]
        · simp [List.map_append, hupd]
      · have hallf : pre.all (fun m => !(m.id == item.id)) = false :=
          Bool.eq_false_iff.mpr hall
        have hP : (fun kv => ex kv.2.path ||
            pre.all (fun m => !(m.id == kv.1))) (item.id, e) = false := by
          simp only [hef, Bool.false_or]
          exact hallf
        have hlkv : lookupReg (reg0.filter
            (fun kv => ex kv.2.path || pre.all (fun m => !(m.id == kv.1))))
            item.id = none := by
          rw [hlk, h0]
          try dsimp only
          rw [if_neg (by simp [hP])]
        rw [hlkv]
        try dsimp only
        simp only [FilterState.mk.injEq]
        refine ⟨?_, ?_, ?_⟩
        · simp [List.filter_append, hsat]
        · apply List.filter_congr
          intro kv hkv
          by_cases hk1 : (kv.1 == item.id) = true
          · have hkeq : kv.1 = item.id := by simpa using hk1
            have h2 := hkv2e kv hkv hkeq
            have hsymm : (item.id == kv.1) = true := by simp [hkeq]
            have hallkv : pre.all (fun m => !(m.id == kv.1)) = false := by
              rw [hkeq]
              exact hallf
            simp [List.all_append, h2, hef, hsymm, hallkv]
          · have hkne : kv.1 ≠ item.id := by simpa using hk1
            have hsymm : (item.id == kv.1) = false :=
              beq_eq_false_iff_ne.mpr (Ne.symm hkne)
            simp [List.all_append, hsymm]
        · simp [List.map_append, hupd]

/-- The whole filtering loop, in closed form. -/
theorem filterPending_eq_stateFor (ex : String → Bool) (reg0 : Registry)
    (hnd : (regKeys reg0).Nodup) :
    ∀ (media pre : List PinterestMedia),
      media.foldl (filterStep ex) (c1StateFor ex reg0 pre) =
        c1StateFor ex reg0 (pre ++ media) := by
  intro media
  induction media with
  | nil => intro pre; simp
  | cons m rest ih =>
    intro pre
    rw [List.foldl_cons, filterStep_stateFor ex reg0 hnd pre m]
    have := ih (pre ++ [m])
    rw [this]
    simp

theorem filterPending_closed (ex : String → Bool) (reg0 : Registry)
    (hnd : (regKeys reg0).Nodup) (media : List PinterestMedia) :
    filterPending ex media reg0 = c1StateFor ex reg0 media := by
  unfold filterPending
  have hinit : (⟨[], reg0, []⟩ : FilterState) = c1StateFor ex reg0 [] := by
    unfold c1StateFor
    simp only [FilterState.mk.injEq]
    refine ⟨by simp, ?_, by simp⟩
    rw [show reg0.filter (fun kv => ex kv.2.path ||
        ([] : List PinterestMedia).all (fun m => !(m.id == kv.1))) = reg0 from by
      simp]
  rw [hinit, filterPending_eq_stateFor ex reg0 hnd media []]
  simp

/-- Claim C1: on every invocation, `download_media` loads the registry and
treats an item as already satisfied exactly when its id is a key of the
loaded registry and the recorded path still exists: satisfied items are kept
out of `to_download` and get their local path set from the registry, all
other items are queued in order, and an entry whose recorded path no longer
exists is deleted from the registry while its item is re-queued. -/
theorem c1_download_registry_filter :
    ∀ (ex : String → Bool) (media : List PinterestMedia) (content : RegFile),
      ((regKeys (loadRegistry content)).Nodup) →
      (downloadMediaPlan ex media content).toDownload =
          media.filter (fun m => !satisfiedB ex (loadRegistry content) m)
      ∧ (downloadMediaPlan ex media content).outMedia =
          media.map (regUpdate ex (loadRegistry content))
      ∧ (downloadMediaPlan ex media content).reg =
          (loadRegistry content).filter (fun kv => ex kv.2.path ||
            media.all (fun m => !(m.id == kv.1)))
      ∧ (∀ m ∈ media, satisfiedB ex (loadRegistry content) m = true ↔
          m ∉ (downloadMediaPlan ex media content).toDownload)
      ∧ (∀ (m : PinterestMedia) (e : RegEntry), m ∈ media →
          lookupReg (loadRegistry content) m.id = some e → ex e.path = false →
          m ∈ (downloadMediaPlan ex media content).toDownload
          ∧ lookupReg (downloadMediaPlan ex media content).reg m.id = none) := by
  intro ex media content hnd
  have hmain : downloadMediaPlan ex media content =
      c1StateFor ex (loadRegistry content) media :=
    filterPending_closed ex (loadRegistry content) hnd media
  refine ⟨?_, ?_, ?_, ?_, ?_⟩
  · rw [hmain]; rfl
  · rw [hmain]; rfl
  · rw [hmain]; rfl
  · intro m hm
    constructor
    · intro hsat hcon
      rw [hmain] at hcon
      have hq := (List.mem_filter.mp hcon).2
      rw [hsat] at hq
      simp at hq
    · intro hnot
      by_contra hsatne
      have hsatf : satisfiedB ex (loadRegistry content) m = false :=
        Bool.eq_false_iff.mpr hsatne
      exact hnot (by
        rw [hmain]
        exact List.mem_filter.mpr ⟨hm, by simp [hsatf]⟩)
  · intro m e hm hlkp hef
    have hsatf : satisfiedB ex (loadRegistry content) m = false := by
      unfold satisfiedB
      rw [hlkp]
      try dsimp only
      exact hef
    constructor
    · rw [hmain]
      exact List.mem_filter.mpr ⟨hm, by simp [hsatf]⟩
    · rw [hmain]
      show lookupReg ((loadRegistry content).filter
        (fun kv => ex kv.2.path ||
          media.all (fun m' => !(m'.id == kv.1)))) m.id = none
      rw [lookupReg_filter
        (fun kv => ex kv.2.path || media.all (fun m' => !(m'.id == kv.1)))
        m.id (loadRegistry content) hnd, hlkp]
      try dsimp only
      have hallf : media.all (fun m' => !(m'.id == m.id)) = false := by
        rw [Bool.eq_false_iff]
        intro hcon
        have hq := List.all_eq_true.mp hcon m hm
        simp at hq
      rw [if_neg (by simp [hef, hallf])]

/-- Witness for C1 at concrete inputs: an item whose registry entry points at
a path that no longer exists is re-queued for download and its entry is
deleted from the registry. -/
theorem c1_download_registry_filter_witness :
    (⟨2, "s2", none, "o", (0, 0), false, none⟩ : PinterestMedia) ∈
        (downloadMediaPlan (fun p => p == "have.jpg")
          [⟨1, "s1", none, "o", (0, 0), false, none⟩,
            ⟨2, "s2", none, "o", (0, 0), false, none⟩]
          (RegFile.parsed
            [(1, ⟨"have.jpg", "t1"⟩), (2, ⟨"gone.jpg", "t2"⟩)])).toDownload
      ∧ lookupReg (downloadMediaPlan (fun p => p == "have.jpg")
          [⟨1, "s1", none, "o", (0, 0), false, none⟩,
            ⟨2, "s2", none, "o", (0, 0), false, none⟩]
          (RegFile.parsed
            [(1, ⟨"have.jpg", "t1"⟩), (2, ⟨"gone.jpg", "t2"⟩)])).reg
          (⟨2, "s2", none, "o", (0, 0), false, none⟩ : PinterestMedia).id =
        none :=
  (c1_download_registry_filter (fun p => p == "have.jpg")
      [⟨1, "s1", none, "o", (0, 0), false, none⟩,
        ⟨2, "s2", none, "o", (0, 0), false, none⟩]
      (RegFile.parsed [(1, ⟨"have.jpg", "t1"⟩), (2, ⟨"gone.jpg", "t2"⟩)])
      (by decide)).2.2.2.2
    ⟨2, "s2", none, "o", (0, 0), false, none⟩ ⟨"gone.jpg", "t2"⟩
    (by simp) (by decide) (by decide)

end PinterestDl
